import Mathlib

/-!
Verification development for the filesystem-explorer MCP server
(`main.py`, `config.py`, `filereader.py`, `synchronizer.py`, `exceptions.py`).

The Python code is shallowly embedded: the filesystem is a rose tree of
named entries carrying content and modification times, Python strings are
Lean strings manipulated through their character lists (so that every
definition evaluates by kernel reduction), exceptions are an explicit
`Except` monad, and the opaque external collaborators named by the spec
(PDF/image decoding, the git subprocess) are oracle parameters.
-/

namespace CWF

/-! ### Python-style string primitives (character-list based) -/

/-- Lowercase every character, as Python `str.lower` does for ASCII input. -/
def strLower (s : String) : String := ⟨s.data.map Char.toLower⟩

/-- Model of `normalize_name` (main.py): lowercase, then replace `_` by `-`. -/
def normalize_name (s : String) : String :=
  ⟨(s.data.map Char.toLower).map (fun c => if c = '_' then '-' else c)⟩

/-- Whitespace test used by the model of Python `str.strip`. -/
def isWS (c : Char) : Bool := c.isWhitespace

/-- Model of Python `str.strip()`: drop leading and trailing whitespace. -/
def strTrim (s : String) : String :=
  ⟨((s.data.dropWhile isWS).reverse.dropWhile isWS).reverse⟩

/-- Model of Python `str.startswith`. -/
def strStartsWith (s p : String) : Bool := p.data.isPrefixOf s.data

/-- Model of Python `str.endswith`. -/
def strEndsWith (s p : String) : Bool := p.data.reverse.isPrefixOf s.data.reverse

/-- Contiguous-sublist test on character lists. -/
def isInfixB (n : List Char) : List Char → Bool
  | [] => n.isEmpty
  | a :: t => n.isPrefixOf (a :: t) || isInfixB n t

/-- Model of Python `needle in hay` on strings. -/
def strContains (hay needle : String) : Bool := isInfixB needle.data hay.data

/-- Model of Python `sep.join(parts)`. -/
def joinSep (sep : String) : List String → String
  | [] => ""
  | [x] => x
  | x :: y :: xs => x ++ sep ++ joinSep sep (y :: xs)

/-- Model of `os.path.join` for the relative names appearing in this code
    (Python inserts a separator unless the left part already ends in one). -/
def pjoin (a b : String) : String :=
  if strEndsWith a "/" then a ++ b else a ++ "/" ++ b

/-- Model of Python `str.rstrip(c)` for a single character. -/
def dropTrailing (c : Char) (s : String) : String :=
  ⟨(s.data.reverse.dropWhile (fun x => decide (x = c))).reverse⟩

/-- Split a character list at every occurrence of `c` (Python `str.split(c)`). -/
def splitCharList (c : Char) : List Char → List (List Char)
  | [] => [[]]
  | x :: xs =>
    if x = c then [] :: splitCharList c xs
    else
      match splitCharList c xs with
      | [] => [[x]]
      | seg :: rest => (x :: seg) :: rest

/-- Model of Python `str.split('/')`. -/
def splitSlash (s : String) : List String := (splitCharList '/' s.data).map (fun l => ⟨l⟩)

/-! ### A computable stable insertion sort with its basic lemmas -/

/-- Insert `x` before the first element `y` with `le x y` (stable). -/
def insertLe {α : Type} (le : α → α → Bool) (x : α) : List α → List α
  | [] => [x]
  | y :: ys => if le x y then x :: y :: ys else y :: insertLe le x ys

/-- Stable insertion sort; models Python's (stable) `sorted` / `list.sort`. -/
def sortLe {α : Type} (le : α → α → Bool) : List α → List α
  | [] => []
  | x :: xs => insertLe le x (sortLe le xs)

theorem insertLe_perm {α : Type} (le : α → α → Bool) (x : α) (l : List α) :
    List.Perm (insertLe le x l) (x :: l) := by
  induction l with
  | nil => simp [insertLe]
  | cons y ys ih =>
    by_cases h : le x y = true
    · simp [insertLe, h]
    · simp only [insertLe, h, if_false]
      exact List.Perm.trans (List.Perm.cons y ih) (List.Perm.swap x y ys)

theorem sortLe_perm {α : Type} (le : α → α → Bool) (l : List α) :
    List.Perm (sortLe le l) l := by
  induction l with
  | nil => simp [sortLe]
  | cons x xs ih =>
    exact List.Perm.trans (insertLe_perm le x (sortLe le xs)) (List.Perm.cons x ih)

theorem mem_insertLe {α : Type} {le : α → α → Bool} {x a : α} {l : List α} :
    a ∈ insertLe le x l ↔ a = x ∨ a ∈ l := by
  have := @List.Perm.mem_iff _ a _ _ (insertLe_perm le x l)
  simpa using this

theorem mem_sortLe {α : Type} {le : α → α → Bool} {a : α} {l : List α} :
    a ∈ sortLe le l ↔ a ∈ l := (sortLe_perm le l).mem_iff

theorem insertLe_sorted {α : Type} {le : α → α → Bool}
    (htot : ∀ a b, le a b = true ∨ le b a = true)
    (htr : ∀ a b c, le a b = true → le b c = true → le a c = true)
    {x : α} {l : List α} (hl : l.Pairwise (fun a b => le a b = true)) :
    (insertLe le x l).Pairwise (fun a b => le a b = true) := by
  induction l with
  | nil => simp [insertLe]
  | cons y ys ih =>
    rcases List.pairwise_cons.mp hl with ⟨hy, hys⟩
    by_cases h : le x y = true
    · simp only [insertLe, h, if_true]
      refine List.pairwise_cons.mpr ⟨?_, hl⟩
      intro b hb
      rcases List.mem_cons.mp hb with rfl | hb
      · exact h
      · exact htr x y b h (hy _ hb)
    · simp only [insertLe, h, if_false]
      refine List.pairwise_cons.mpr ⟨?_, ih hys⟩
      intro b hb
      rcases mem_insertLe.mp hb with rfl | hb
      · rcases htot b y with h' | h'
        · exact absurd h' h
        · exact h'
      · exact hy _ hb

theorem sortLe_sorted {α : Type} {le : α → α → Bool}
    (htot : ∀ a b, le a b = true ∨ le b a = true)
    (htr : ∀ a b c, le a b = true → le b c = true → le a c = true)
    (l : List α) : (sortLe le l).Pairwise (fun a b => le a b = true) := by
  induction l with
  | nil => simp [sortLe]
  | cons x xs ih => exact insertLe_sorted htot htr ih

/-! ### Lexicographic string comparison (code-point order, as in Python) -/

/-- Character comparison by code point. -/
def charLt (a b : Char) : Bool := decide (a.toNat < b.toNat)

/-- Lexicographic comparison of character lists. -/
def listLeC : List Char → List Char → Bool
  | [], _ => true
  | _ :: _, [] => false
  | a :: as, b :: bs => if a = b then listLeC as bs else charLt a b

/-- Lexicographic comparison of strings, modelling Python string `<=`. -/
def strLeB (a b : String) : Bool := listLeC a.data b.data

theorem charEq_of_toNat_eq {a b : Char} (h : a.toNat = b.toNat) : a = b :=
  Char.ext (UInt32.ext h)

theorem listLeC_total (a b : List Char) : listLeC a b = true ∨ listLeC b a = true := by
  induction a generalizing b with
  | nil => left; rfl
  | cons x xs ih =>
    cases b with
    | nil => right; rfl
    | cons y ys =>
      by_cases hxy : x = y
      · subst hxy
        simpa [listLeC] using ih ys
      · have hne : ¬ x.toNat = y.toNat := fun h => hxy (charEq_of_toNat_eq h)
        rcases Nat.lt_or_ge x.toNat y.toNat with h | h
        · left; simp [listLeC, hxy, charLt, h]
        · right
          have hyx : ¬ y = x := fun h' => hxy h'.symm
          have : y.toNat < x.toNat := lt_of_le_of_ne h (fun h' => hne h'.symm)
          simp [listLeC, if_neg hyx, charLt, this]

theorem listLeC_trans (a b c : List Char) (hab : listLeC a b = true)
    (hbc : listLeC b c = true) : listLeC a c = true := by
  induction a generalizing b c with
  | nil => rfl
  | cons x xs ih =>
    cases b with
    | nil => simp [listLeC] at hab
    | cons y ys =>
      cases c with
      | nil => simp [listLeC] at hbc
      | cons z zs =>
        by_cases hxy : x = y
        · subst hxy
          by_cases hyz : x = z
          · subst hyz
            simp only [listLeC, if_pos rfl] at hab hbc ⊢
            exact ih ys zs hab hbc
          · simp only [listLeC, if_pos rfl] at hab
            simpa [listLeC, hyz] using hbc
        · by_cases hyz : y = z
          · subst hyz
            simpa [listLeC, hxy] using hab
          · simp only [listLeC, if_neg hxy] at hab
            simp only [listLeC, if_neg hyz] at hbc
            have h1 : x.toNat < y.toNat := by simpa [charLt] using hab
            have h2 : y.toNat < z.toNat := by simpa [charLt] using hbc
            have hxz : ¬ x = z := fun h => by
              subst h
              exact absurd (Nat.lt_trans h1 h2) (lt_irrefl _)
            simp [listLeC, hxz, charLt, Nat.lt_trans h1 h2]

theorem listLeC_antisymm (a b : List Char) (hab : listLeC a b = true)
    (hba : listLeC b a = true) : a = b := by
  induction a generalizing b with
  | nil =>
    cases b with
    | nil => rfl
    | cons y ys => simp [listLeC] at hba
  | cons x xs ih =>
    cases b with
    | nil => simp [listLeC] at hab
    | cons y ys =>
      by_cases hxy : x = y
      · subst hxy
        simp only [listLeC, if_pos rfl] at hab hba
        rw [ih ys hab hba]
      · simp only [listLeC, if_neg hxy, if_neg (fun h => hxy (Eq.symm h))] at hab hba
        have h1 : x.toNat < y.toNat := by simpa [charLt] using hab
        have h2 : y.toNat < x.toNat := by simpa [charLt] using hba
        exact absurd (Nat.lt_trans h1 h2) (lt_irrefl _)

theorem strLeB_total (a b : String) : strLeB a b = true ∨ strLeB b a = true :=
  listLeC_total a.data b.data

theorem strLeB_trans (a b c : String) (hab : strLeB a b = true)
    (hbc : strLeB b c = true) : strLeB a c = true :=
  listLeC_trans a.data b.data c.data hab hbc

theorem strLeB_antisymm (a b : String) (hab : strLeB a b = true)
    (hba : strLeB b a = true) : a = b := by
  cases a with
  | mk da =>
    cases b with
    | mk db =>
      have : da = db := listLeC_antisymm da db hab hba
      rw [this]

/-- Sorting a list of strings, modelling Python `sorted(names)`. -/
def sortStrings (l : List String) : List String := sortLe strLeB l

/-! ### The filesystem model

A directory's contents are a list of entries in `os.listdir` order; regular
files carry their text content and files and directories carry an integer
modification time (`os.path.getmtime`). -/

inductive FSTree where
  | file (name content : String) (mtime : Nat)
  | dir (name : String) (mtime : Nat) (children : List FSTree)

def FSTree.name : FSTree → String
  | .file n _ _ => n
  | .dir n _ _ => n

def FSTree.mtime : FSTree → Nat
  | .file _ _ m => m
  | .dir _ m _ => m

def FSTree.isDir : FSTree → Bool
  | .file .. => false
  | .dir .. => true

def FSTree.childrenOf : FSTree → List FSTree
  | .file .. => []
  | .dir _ _ c => c

/-- Duplicate-freedom test on name lists. -/
def nodupB : List String → Bool
  | [] => true
  | x :: xs => !(xs.any (fun y => decide (y = x))) && nodupB xs

theorem nodupB_iff (l : List String) : nodupB l = true ↔ l.Nodup := by
  induction l with
  | nil => simp [nodupB]
  | cons x xs ih =>
    have hmem : ((xs.any fun y => decide (y = x)) = false) ↔ x ∉ xs := by
      rw [← Bool.not_eq_true, List.any_eq_true]
      constructor
      · intro h hx
        exact h ⟨x, hx, by simp⟩
      · rintro h ⟨y, hy, hyx⟩
        exact h (by simpa using (of_decide_eq_true hyx) ▸ hy)
    simp only [nodupB, Bool.and_eq_true, Bool.not_eq_true', ih, List.nodup_cons, hmem]

/-!  Well-formedness of a real directory listing: sibling names are distinct
    at every level (a filesystem cannot hold two entries of the same name
    in one directory). -/

mutual

def FSTree.wfB : FSTree → Bool
  | .file .. => true
  | .dir _ _ c => nodupB (c.map FSTree.name) && wfAllB c

def wfAllB : List FSTree → Bool
  | [] => true
  | t :: ts => t.wfB && wfAllB ts

end

def wfListB (c : List FSTree) : Bool := nodupB (c.map FSTree.name) && wfAllB c

/-- Sorting sibling entries by name (Python sorts the name list and then
    addresses children by name; with distinct sibling names this is the
    same as sorting the entries). -/
def sortTreesByName (c : List FSTree) : List FSTree :=
  sortLe (fun a b => strLeB a.name b.name) c

/-!  Canonical form of a directory listing: every level sorted by name.
    Two listings with the same canonical form present the same on-disk
    tree, differing only in `os.listdir` enumeration order. -/

mutual

def FSTree.canon : FSTree → FSTree
  | .file n s m => .file n s m
  | .dir n m c => .dir n m (sortTreesByName (canonMap c))

def canonMap : List FSTree → List FSTree
  | [] => []
  | t :: ts => t.canon :: canonMap ts

end

def canonList (c : List FSTree) : List FSTree := sortTreesByName (canonMap c)

theorem canonMap_eq_map (c : List FSTree) : canonMap c = c.map FSTree.canon := by
  induction c with
  | nil => rfl
  | cons t ts ih => simp [canonMap, ih]

theorem canon_name (t : FSTree) : t.canon.name = t.name := by
  cases t <;> rfl

theorem canon_isDir (t : FSTree) : t.canon.isDir = t.isDir := by
  cases t <;> rfl

theorem canon_mtime (t : FSTree) : t.canon.mtime = t.mtime := by
  cases t <;> rfl

/-- Two per-name-sorted entry lists that are permutations of each other and
    have duplicate-free names are equal. -/
theorem sorted_nodup_perm_eq : ∀ {l₁ l₂ : List FSTree},
    l₁.Pairwise (fun a b => strLeB a.name b.name = true) →
    l₂.Pairwise (fun a b => strLeB a.name b.name = true) →
    (l₁.map FSTree.name).Nodup → List.Perm l₁ l₂ → l₁ = l₂ := by
  intro l₁
  induction l₁ with
  | nil =>
    intro l₂ _ _ _ hp
    exact (hp.symm.eq_nil).symm
  | cons x xs ih =>
    intro l₂ h1 h2 hnd hp
    cases l₂ with
    | nil => exact absurd hp.eq_nil (by simp)
    | cons y ys =>
      rcases List.pairwise_cons.mp h1 with ⟨hx, hxs⟩
      rcases List.pairwise_cons.mp h2 with ⟨hy, hys⟩
      simp only [List.map_cons, List.nodup_cons, List.mem_map] at hnd
      rcases hnd with ⟨hxn, hndxs⟩
      have hxy : x = y := by
        have hxmem : x ∈ y :: ys := hp.mem_iff.mp (List.mem_cons_self x xs)
        have hymem : y ∈ x :: xs := hp.mem_iff.mpr (List.mem_cons_self y ys)
        rcases List.mem_cons.mp hxmem with h | hxys
        · exact h
        · rcases List.mem_cons.mp hymem with h | hyxs
          · exact h.symm
          · have e1 : strLeB x.name y.name = true := hx y hyxs
            have e2 : strLeB y.name x.name = true := hy x hxys
            have : x.name = y.name := strLeB_antisymm _ _ e1 e2
            exact absurd ⟨y, hyxs, this.symm⟩ hxn
      subst hxy
      have hp' : List.Perm xs ys := hp.cons_inv
      rw [ih hxs hys hndxs hp']

/-! ### Exceptions (exceptions.py) and Python try/except -/

inductive PyExc where
  | invalidFileType (message details : String)
  | fileReadError (message details : String)
  | customFileNotFound (message details : String)
  | directoryAccess (message details : String)
  | permissionError (msg : String)
  | nameError (msg : String)
  | timeoutExpired
  | calledProcessError (stderr : String)
  | osFileNotFound
  | other (msg : String)
deriving DecidableEq

/-- Model of `str(e)`: the custom exceptions format `message` and `details`
    as in `FileSystemExplorerError._format_message`. -/
def PyExc.str : PyExc → String
  | .invalidFileType m d => if d = "" then m else m ++ "\nDetails: " ++ d
  | .fileReadError m d => if d = "" then m else m ++ "\nDetails: " ++ d
  | .customFileNotFound m d => if d = "" then m else m ++ "\nDetails: " ++ d
  | .directoryAccess m d => if d = "" then m else m ++ "\nDetails: " ++ d
  | .permissionError m => m
  | .nameError m => m
  | .timeoutExpired => "Command timed out after 300 seconds"
  | .calledProcessError s => s
  | .osFileNotFound => "No such file or directory: 'git'"
  | .other m => m

/-- Model of a Python `try`/`except` chain: run the body; on an exception
    dispatch to the handler (which re-raises by returning `.error`). -/
def pyTry {α : Type} (body : Except PyExc α) (handler : PyExc → Except PyExc α) :
    Except PyExc α :=
  match body with
  | .ok a => .ok a
  | .error e => handler e

/-- `true` when no exception escapes. -/
def okE {α : Type} : Except PyExc α → Bool
  | .ok _ => true
  | .error _ => false

theorem pyTry_okE {α : Type} (body : Except PyExc α) (handler : PyExc → Except PyExc α)
    (h : ∀ e, okE (handler e) = true) : okE (pyTry body handler) = true := by
  cases body with
  | ok a => rfl
  | error e => exact h e

/-! ### Config (config.py) -/

def UPLOADED_FILES_PATH : String :=
  "/home/piyush/.local/lib/python3.12/site-packages/open_webui/data/uploads/"

/-- `STORAGE_PATH = os.path.join(os.getcwd(), "storage")`. -/
def STORAGE_PATH (cwd : String) : String := pjoin cwd "storage"

def DEFAULT_MAX_DEPTH : Nat := 100

def IMAGE_EXTENSIONS : List String :=
  [".png", ".jpg", ".jpeg", ".gif", ".bmp", ".webp", ".svg"]

def is_image_file (filename : String) : Bool :=
  IMAGE_EXTENSIONS.any (fun ext => strEndsWith (strLower filename) ext)

def is_pdf_file (filename : String) : Bool := strEndsWith (strLower filename) ".pdf"

/-- `Config.get_search_paths`: the storage root always, the upload root only
    when it exists on disk.  The filesystem is a partial map from absolute
    paths to the entry found there. -/
def get_search_paths (cwd : String) (fs : String → Option FSTree) : List String :=
  [STORAGE_PATH cwd] ++
    (if (fs UPLOADED_FILES_PATH).isSome then [UPLOADED_FILES_PATH] else [])

/-! ### The directory lister (`build_files` / `_list_dir` in main.py)

`_list_dir` emits, per visited directory, one text block; the model builds
the blocks as structured values (`DirBlock`) and renders them to the exact
strings the Python code concatenates.  The recursion-depth budget
`max_depth - current_depth` is the structural fuel. -/

structure DirBlock where
  depth : Nat
  path : String
  subdirs : List (String × Bool)
  files : List String
deriving DecidableEq

/-- Descending stable sort by an integer key: `l.sort(key=..., reverse=True)`. -/
def sortByKeyDesc {α : Type} (key : α → Nat) (l : List α) : List α :=
  sortLe (fun a b => decide (key b ≤ key a)) l

/-- The `directories` list of `get_most_recent_directory` (main.py:363-367):
    immediate subdirectories with their mtimes, `.git`/`.github` excluded. -/
def mrCandidates (c : List FSTree) : List (String × Nat) :=
  (c.filter (fun t =>
      t.isDir && !(decide (t.name = ".git") || decide (t.name = ".github")))).map
    (fun t => (t.name, t.mtime))

/-- `get_most_recent_directory` (main.py:357): most recently modified
    immediate subdirectory, `.git`/`.github` excluded, `None` when there
    are no candidate subdirectories. -/
def get_most_recent_directory (c : List FSTree) : Option String :=
  match sortByKeyDesc (fun p => p.2) (mrCandidates c) with
  | [] => none
  | p :: _ => some p.1

/-- Immediate subdirectory names, `.git` excluded (`_list_dir`, main.py:415). -/
def dirNames (c : List FSTree) : List String :=
  (c.filter (fun t => t.isDir && !(decide (t.name = ".git")))).map FSTree.name

/-- Immediate regular-file names (`_list_dir`, main.py:419). -/
def fileNames (c : List FSTree) : List String :=
  (c.filter (fun t => !t.isDir)).map FSTree.name

/-- The subdirectory entries in the order the recursion visits them:
    `for d in sorted(dirs): _list_dir(os.path.join(path, d), ...)`; with
    distinct sibling names, descending by sorted name equals sorting the
    entries themselves by name. -/
def sortedDirTrees (c : List FSTree) : List FSTree :=
  sortTreesByName (c.filter (fun t => t.isDir && !(decide (t.name = ".git"))))

/-- One emitted block: sorted subdirectory names, each flagged when the
    code appends " [MOST RECENT]" (`current_depth == 0 and d == most_recent_dir`),
    and sorted file names. -/
def mkDirBlock (most : Option String) (path : String) (c : List FSTree)
    (curDepth : Nat) : DirBlock :=
  { depth := curDepth
    path := path
    subdirs := (sortStrings (dirNames c)).map
      (fun d => (d, decide (curDepth = 0) && decide (most = some d)))
    files := sortStrings (fileNames c) }

/-- The recursive walk of `_list_dir`; `budget = max_depth - current_depth`,
    so recursion happens exactly while `current_depth < max_depth`. -/
def listDirBlocksAux (most : Option String) :
    Nat → String → List FSTree → Nat → List DirBlock
  | 0, path, c, curDepth => [mkDirBlock most path c curDepth]
  | b + 1, path, c, curDepth =>
    mkDirBlock most path c curDepth ::
      (sortedDirTrees c).flatMap
        (fun d => listDirBlocksAux most b (pjoin path d.name) d.childrenOf (curDepth + 1))

def listDirBlocks (most : Option String) (maxDepth : Nat) (path : String)
    (c : List FSTree) : List DirBlock :=
  listDirBlocksAux most maxDepth path c 0

def renderSubdirEntry (p : String × Bool) : String :=
  if p.2 then p.1 ++ " [MOST RECENT]" else p.1

/-- The exact text `_list_dir` appends for one directory. -/
def renderBlock (b : DirBlock) : String :=
  "Directory: " ++ b.path ++ "\n"
    ++ (if b.subdirs.isEmpty then ""
        else "  Subdirectories: " ++ joinSep ", " (b.subdirs.map renderSubdirEntry) ++ "\n")
    ++ (if b.files.isEmpty then ""
        else "  Files: " ++ joinSep ", " b.files ++ "\n")
    ++ "\n"

def renderBlocks (bs : List DirBlock) : String := joinSep "" (bs.map renderBlock)

/-- The file names `_list_dir` inserts into the module-level cache
    (`list_of_files.update(files)`) over a whole listing. -/
def listingCacheAdds (bs : List DirBlock) : List String := bs.flatMap DirBlock.files

/-- `build_files` (main.py:378): directory-access check, then the walk;
    the result is the rendered listing. -/
def build_files (path : String) (fs : String → Option FSTree) (maxDepth : Nat) :
    Except PyExc String :=
  match fs path with
  | none => .error (.directoryAccess ("Cannot access directory '" ++ path ++ "'")
      "Directory does not exist")
  | some (.file ..) => .error (.directoryAccess ("Cannot access directory '" ++ path ++ "'")
      "Path is not a directory")
  | some (.dir _ _ c) =>
    .ok (renderBlocks (listDirBlocks (get_most_recent_directory c) maxDepth path c))

/-! ### PathMatcher (`find_file_in_paths` / `find_directory_in_paths`, main.py)

`os.walk` visits directories top-down; at each visited directory the code
tests every file (resp. every pruned subdirectory) for a normalized
substring match against the bare name or the path relative to the search
root, and `.git` subtrees are pruned.  The walk is transcribed as: test the
current directory's candidates in listing order, then descend into each
non-`.git` subdirectory in listing order. -/

/-- Match test for one file candidate (main.py:93-104). -/
def fileMatchB (nq : String) (pre : List String) (name : String) : Bool :=
  strContains (normalize_name name) nq
    || strContains (normalize_name (joinSep "/" (pre ++ [name]))) nq

/-- First matching file directly in the current directory. -/
def fileHit (nq curPath : String) (pre : List String) (c : List FSTree) : Option String :=
  (c.find? (fun t => !t.isDir && fileMatchB nq pre t.name)).map
    (fun t => pjoin curPath t.name)

/-!  Depth-first continuation of the file search over the subdirectories:
    a `.git` subdirectory is pruned; any other subdirectory has its own
    files tested first and is then descended into, before its later
    siblings. -/

mutual

def walkFileTree (nq curPath : String) (pre : List String) : FSTree → Option String
  | .file .. => none
  | .dir n _ cc =>
    if n = ".git" then none
    else
      match fileHit nq (pjoin curPath n) (pre ++ [n]) cc with
      | some p => some p
      | none => walkFileList nq (pjoin curPath n) (pre ++ [n]) cc

def walkFileList (nq curPath : String) (pre : List String) :
    List FSTree → Option String
  | [] => none
  | t :: ts =>
    match walkFileTree nq curPath pre t with
    | some p => some p
    | none => walkFileList nq curPath pre ts

end

/-- Search one root's tree in `os.walk` order. -/
def walkFindFile (nq rootPath : String) (c : List FSTree) : Option String :=
  match fileHit nq rootPath [] c with
  | some p => some p
  | none => walkFileList nq rootPath [] c

def findFileAcross (nq : String) (fs : String → Option FSTree) :
    List String → Option String
  | [] => none
  | r :: rs =>
    match fs r with
    | some (.dir _ _ c) =>
      (match walkFindFile nq r c with
       | some p => some p
       | none => findFileAcross nq fs rs)
    | _ => findFileAcross nq fs rs

/-- `find_file_in_paths` (main.py:65): first match across the search roots,
    roots missing from disk skipped. -/
def find_file_in_paths (file_name : String) (search_paths : List String)
    (fs : String → Option FSTree) : Option String :=
  findFileAcross (normalize_name file_name) fs search_paths

/-- Match test for one directory candidate (main.py:144-155). -/
def dirMatchB (nq : String) (pre : List String) (name : String) : Bool :=
  strContains (normalize_name name) nq
    || strContains (normalize_name (joinSep "/" (pre ++ [name]))) nq

/-- First matching subdirectory (after `.git` pruning) of the current
    directory, returned with its own children. -/
def dirHit (nq curPath : String) (pre : List String) (c : List FSTree) :
    Option (String × List FSTree) :=
  ((c.filter (fun t => t.isDir && !(decide (t.name = ".git")))).find?
      (fun t => dirMatchB nq pre t.name)).map
    (fun t => (pjoin curPath t.name, t.childrenOf))

/-!  Depth-first continuation of the directory search. -/

mutual

def walkDirTree (nq curPath : String) (pre : List String) :
    FSTree → Option (String × List FSTree)
  | .file .. => none
  | .dir n _ cc =>
    if n = ".git" then none
    else
      match dirHit nq (pjoin curPath n) (pre ++ [n]) cc with
      | some r => some r
      | none => walkDirList nq (pjoin curPath n) (pre ++ [n]) cc

def walkDirList (nq curPath : String) (pre : List String) :
    List FSTree → Option (String × List FSTree)
  | [] => none
  | t :: ts =>
    match walkDirTree nq curPath pre t with
    | some r => some r
    | none => walkDirList nq curPath pre ts

end

def walkFindDir (nq rootPath : String) (c : List FSTree) :
    Option (String × List FSTree) :=
  match dirHit nq rootPath [] c with
  | some r => some r
  | none => walkDirList nq rootPath [] c

def findDirAcross (nq : String) (fs : String → Option FSTree) :
    List String → Option (String × List FSTree)
  | [] => none
  | r :: rs =>
    match fs r with
    | some (.dir _ _ c) =>
      (match walkFindDir nq r c with
       | some p => some p
       | none => findDirAcross nq fs rs)
    | _ => findDirAcross nq fs rs

/-- `find_directory_in_paths` (main.py:118). -/
def find_directory_in_paths (directory_name : String) (search_paths : List String)
    (fs : String → Option FSTree) : Option (String × List FSTree) :=
  findDirAcross (normalize_name directory_name) fs search_paths

/-! ### FileReader (filereader.py) -/

/-- `check_file_exists` (filereader.py:39): first cached name containing the
    lowercased query as a substring; `none` models the raised
    `CustomFileNotFoundError`. -/
def check_file_exists (file_name : String) (files : List String) : Option String :=
  files.find? (fun f => strContains (strLower f) (strLower file_name))

/-- `read_text_file` (filereader.py:242).  The binary check looks for a null
    byte in the first 1024 bytes; on a binary file the source raises
    `InvalidFileTypeError`, but filereader.py never imports that name, so
    what actually escapes the function at runtime is a `NameError`.  The
    encoding-fallback chain cannot fail in this model, where contents are
    abstract strings. -/
def read_text_file (file_path : String) (disk : String → Option String) :
    Except PyExc String :=
  match disk file_path with
  | none => .error (.fileReadError ("Failed to read file '" ++ file_path ++ "'")
      ("[Errno 2] No such file or directory: '" ++ file_path ++ "'"))
  | some content =>
    if (content.data.take 1024).any (fun ch => decide (ch.toNat = 0)) then
      .error (.nameError "name 'InvalidFileTypeError' is not defined")
    else
      .ok content

/-- The PDF and image decoders, which the spec treats as opaque external
    collaborators, are oracle parameters: any success or any raised
    exception is allowed. -/
structure Decoders where
  pdf : String → Except PyExc String
  image : String → Except PyExc String

/-! ### The `read_file` tool (main.py:171) -/

/-- The `except` clauses of `read_file` (main.py:225-236), ending in the
    catch-all `except Exception`. -/
def read_file_handler (file_name : String) : PyExc → Except PyExc String
  | .invalidFileType m d => .ok ("Error: " ++ m ++ "\n" ++ d)
  | .fileReadError m d => .ok ("Error: " ++ m ++ "\n" ++ d)
  | .customFileNotFound m _ => .ok ("Error: " ++ m)
  | .permissionError _ => .ok ("Error: Permission denied for file '" ++ file_name ++ "'.")
  | e => .ok ("Error: An unexpected error occurred: " ++ e.str)

/-- `read_file`: empty-query guard, a cache probe whose result the code
    never uses, then always the directory-walk search, then decode by
    extension.  The second component records whether `find_file_in_paths`
    (the walk over the search roots) was invoked during the call. -/
def read_file (file_name : String) (cache : List String) (cwd : String)
    (fs : String → Option FSTree) (disk : String → Option String) (dec : Decoders) :
    Except PyExc String × Bool :=
  if strTrim file_name = "" then (.ok "Error: File name cannot be empty.", false)
  else
    let fn := strTrim file_name
    let _cached := check_file_exists fn cache
    let search_paths := get_search_paths cwd fs
    let body : Except PyExc String :=
      match find_file_in_paths fn search_paths fs with
      | none => .ok ("Error: File '" ++ fn ++ "' not found.\nSearched in: "
          ++ joinSep ", " search_paths)
      | some file_path =>
        if is_pdf_file file_path then dec.pdf file_path
        else if is_image_file file_path then dec.image file_path
        else read_text_file file_path disk
    (pyTry body (read_file_handler fn), true)

/-! ### The `list_files` tool (main.py:459) -/

/-- Model of `os.path.expanduser`: replace a leading `~`. -/
def expanduser (home s : String) : String :=
  if strStartsWith s "~" then home ++ ⟨s.data.drop 1⟩ else s

/-- Model of `os.path.abspath` for a possibly relative path (path
    normalization beyond joining with the working directory is omitted). -/
def abspathify (cwd s : String) : String :=
  if strStartsWith s "/" then s else pjoin cwd s

/-- The nested `except DirectoryAccessError` of the `"."` branch
    (main.py:482, 494): renders `e.message` inline, re-raises anything else. -/
def catchDirAccessMsg (b : Except PyExc String) : Except PyExc String :=
  match b with
  | .error (.directoryAccess m _) => .ok ("Error: " ++ m ++ "\n")
  | x => x

/-- The `except` clauses of `list_files` (main.py:523-531). -/
def list_files_handler (directory : String) : PyExc → Except PyExc String
  | .directoryAccess m d => .ok ("Error: " ++ m ++ "\n" ++ d)
  | .permissionError _ =>
    .ok ("Error: Permission denied for directory '" ++ directory ++ "'.")
  | e => .ok ("Error: An unexpected error occurred: " ++ e.str)

/-- `list_files`: `"."`/empty lists the storage root and, when present, the
    upload root; otherwise fuzzy-resolve the argument as a directory, else
    treat it as a literal path. -/
def list_files (directory cwd home : String) (fs : String → Option FSTree) :
    Except PyExc String :=
  if directory = "." || directory = "" then
    let body : Except PyExc String := do
      let s1 ← catchDirAccessMsg (build_files (STORAGE_PATH cwd) fs DEFAULT_MAX_DEPTH)
      let base := "=== Storage Folder ===\n" ++ s1
      if (fs UPLOADED_FILES_PATH).isSome then
        let s2 ← catchDirAccessMsg (build_files UPLOADED_FILES_PATH fs DEFAULT_MAX_DEPTH)
        pure (base ++ "\n=== Uploaded Files ===\n" ++ s2)
      else
        pure base
    pyTry body (list_files_handler directory)
  else
    let d0 := strTrim directory
    let sp := get_search_paths cwd fs
    let resolved :=
      match find_directory_in_paths d0 sp fs with
      | some (p, _) => p
      | none => abspathify cwd (expanduser home d0)
    pyTry (build_files resolved fs DEFAULT_MAX_DEPTH) (list_files_handler resolved)

/-! ### The `list_files_within_folder` tool (main.py:646) -/

/-- The `except` clauses of `list_files_within_folder` (main.py:685-693). -/
def lfwf_handler (folder : String) : PyExc → Except PyExc String
  | .directoryAccess m d => .ok ("Error: " ++ m ++ "\n" ++ d)
  | .permissionError _ =>
    .ok ("Error: Permission denied for directory '" ++ folder ++ "'.")
  | e => .ok ("Error: An unexpected error occurred: " ++ e.str)

/-- `list_files_within_folder`: note the source has no empty-query guard —
    it strips the argument and immediately hands it to
    `find_directory_in_paths`.  The second component records whether that
    matcher was invoked during the call (it always is). -/
def list_files_within_folder (folder_name : String) (cwd : String)
    (fs : String → Option FSTree) : Except PyExc String × Bool :=
  let fn := strTrim folder_name
  let sp := get_search_paths cwd fs
  let body : Except PyExc String :=
    match find_directory_in_paths fn sp fs with
    | none => .error (.directoryAccess ("Cannot access directory '" ++ fn ++ "'")
        ("Folder not found in search paths: " ++ joinSep ", " sp))
    | some (p, _) =>
      match fs p with
      | some (.dir ..) => build_files p fs DEFAULT_MAX_DEPTH
      | _ => .error (.directoryAccess ("Cannot access directory '" ++ p ++ "'")
          "Path is not a directory")
  (pyTry body (lfwf_handler fn), true)

/-! ### The `clone_github_repo` tool (main.py:287) -/

/-- Outcome of the external `git clone` subprocess, an oracle. -/
inductive GitResult where
  | success
  | timeout
  | exitError (stderr : String)
  | gitMissing
deriving DecidableEq

/-- The `except` clauses of `clone_github_repo` (main.py:340-352). -/
def clone_handler : PyExc → Except PyExc String
  | .timeoutExpired => .ok "Error: Clone operation timed out after 5 minutes."
  | .calledProcessError stderr =>
    .ok ("Error cloning repository: "
      ++ (if strTrim stderr = "" then "Unknown git error" else strTrim stderr))
  | .osFileNotFound => .ok "Error: Git is not installed or not in PATH."
  | e => .ok ("Error: An unexpected error occurred: " ++ e.str)

/-- Destination name derivation (main.py:309-311): last `/`-segment of the
    URL with trailing slashes removed, then a trailing `.git` stripped. -/
def derive_repo_name (url : String) : String :=
  let last := (splitSlash (dropTrailing '/' url)).getLastD ""
  if strEndsWith last ".git" then ⟨last.data.take (last.data.length - 4)⟩ else last

/-- `clone_github_repo` over the storage root's top-level entry names.
    Returns the result string, whether the subprocess was invoked, and the
    storage names afterwards (the cache-refresh side effect of a successful
    clone is not modelled).  The middle component is `false` exactly on the
    paths that never attempt a clone. -/
def clone_github_repo (url : String) (cwd : String) (storageNames : List String)
    (git : GitResult) : Except PyExc String × Bool × List String :=
  if strTrim url = "" then
    (.ok "Error: Repository URL cannot be empty.", false, storageNames)
  else
    let u := strTrim url
    if !(strStartsWith u "http://" || strStartsWith u "https://"
        || strStartsWith u "git@") then
      (.ok "Error: Invalid repository URL format. Must start with http://, https://, or git@",
        false, storageNames)
    else
      let repo_name := derive_repo_name u
      if repo_name = "" then
        (.ok "Error: Could not extract repository name from URL.", false, storageNames)
      else
        let repo_destination := pjoin (STORAGE_PATH cwd) repo_name
        if storageNames.any (fun n => decide (n = repo_name)) then
          (.ok ("Warning: Repository '" ++ repo_name ++ "' already exists at '"
              ++ repo_destination ++ "'."), false, storageNames)
        else
          let rNames := match git with
            | .success => storageNames ++ [repo_name]
            | _ => storageNames
          let body : Except PyExc String := match git with
            | .success => .ok ("Repository '" ++ u ++ "' cloned successfully to '"
                ++ repo_destination ++ "'.")
            | .timeout => .error .timeoutExpired
            | .exitError s => .error (.calledProcessError s)
            | .gitMissing => .error .osFileNotFound
          (pyTry body clone_handler, true, rNames)

/-! ### The `read_latest_content` tool (main.py:535) -/

def RESERVED_NAMES : List String := [".git", ".github", ".DS_Store"]

/-- Per-file decode dispatch inside `read_latest_content` (main.py:595-605):
    images become a placeholder without a read, PDFs go to the decoder, and
    text goes through `read_text_file` under
    `except InvalidFileTypeError: content = "[Binary File]"`.  (Because of
    the missing import, a binary file raises `NameError`, which this
    `except` does not catch.) -/
def rl_decode_file (name full_path : String) (disk : String → Option String)
    (dec : Decoders) : Except PyExc String :=
  if is_image_file name then .ok "[Image File]"
  else if is_pdf_file name then dec.pdf full_path
  else
    pyTry (read_text_file full_path disk)
      (fun e => match e with
        | .invalidFileType _ _ => .ok "[Binary File]"
        | e' => .error e')

/-- One `files_content` entry: the per-file `try` catches every exception
    and renders it inline (main.py:608). -/
def rl_file_entry (rel name full_path : String) (disk : String → Option String)
    (dec : Decoders) : String :=
  match rl_decode_file name full_path disk dec with
  | .ok content => "--- File: " ++ rel ++ " ---\n" ++ content ++ "\n"
  | .error e => "--- File: " ++ rel ++ " ---\nError: " ++ e.str ++ "\n"

/-- Files directly in one visited directory: (relative path, name, full path). -/
def rlFilesHere (curPath : String) (pre : List String) (c : List FSTree) :
    List (String × String × String) :=
  (c.filter (fun t => !t.isDir)).map
    (fun t => (joinSep "/" (pre ++ [t.name]), t.name, pjoin curPath t.name))

/-!  Depth-first continuation of the `os.walk` over the picked directory,
    `.git` pruned. -/

mutual

def rlWalkTree (curPath : String) (pre : List String) :
    FSTree → List (String × String × String)
  | .file .. => []
  | .dir n _ cc =>
    if n = ".git" then []
    else
      rlFilesHere (pjoin curPath n) (pre ++ [n]) cc
        ++ rlWalkList (pjoin curPath n) (pre ++ [n]) cc

def rlWalkList (curPath : String) (pre : List String) :
    List FSTree → List (String × String × String)
  | [] => []
  | t :: ts => rlWalkTree curPath pre t ++ rlWalkList curPath pre ts

end

def rlAllFiles (rootPath : String) (c : List FSTree) :
    List (String × String × String) :=
  rlFilesHere rootPath [] c ++ rlWalkList rootPath [] c

/-- The banner `read_latest_content` prints before the content
    (main.py:575-581); `now` and the formatted mtime come from the clock. -/
def rl_header (now fmtmtime name path : String) (is_dir : Bool) : String :=
  "*** CONTEXT UPDATE: LATEST CONTENT DETECTED ***\n"
    ++ "Time: " ++ now ++ "\n"
    ++ "Latest Item: " ++ name ++ " ("
    ++ (if is_dir then "Directory/Repository" else "File") ++ ")\n"
    ++ "Last Modified: " ++ fmtmtime ++ "\n"
    ++ "Location: " ++ path ++ "\n"
    ++ "NOTE: Focus ONLY on the content below. Ignore previous context.\n\n"
    ++ "=== START OF CONTENT ===\n\n"

/-- The catch-all of `read_latest_content` (main.py:639). -/
def read_latest_handler : PyExc → Except PyExc String
  | e => .ok ("Error processing latest content: " ++ e.str)

/-- The full output for a picked item `t`. -/
def rl_output (storage_path now : String) (fmt : Nat → String) (t : FSTree)
    (disk : String → Option String) (dec : Decoders) : String :=
  let path := pjoin storage_path t.name
  let files_content : List String :=
    if t.isDir then
      (rlAllFiles path t.childrenOf).map
        (fun e => rl_file_entry e.1 e.2.1 e.2.2 disk dec)
    else
      [rl_file_entry t.name t.name path disk dec]
  rl_header now (fmt t.mtime) t.name path t.isDir
    ++ (if files_content.isEmpty then "No readable content found."
        else joinSep "\n" files_content)
    ++ "\n=== END OF CONTENT ===\n"

/-- `read_latest_content`: drop the reserved names among the storage root's
    immediate children, stable-sort by mtime descending, take the head. -/
def read_latest_content (cwd now : String) (fmt : Nat → String)
    (fs : String → Option FSTree) (disk : String → Option String)
    (dec : Decoders) : Except PyExc String :=
  let storage_path := STORAGE_PATH cwd
  let body : Except PyExc String :=
    match fs storage_path with
    | none => .ok ("Error: Storage directory does not exist: " ++ storage_path)
    | some (.file ..) => .error (.other ("[Errno 20] Not a directory: '"
        ++ storage_path ++ "'"))
    | some (.dir _ _ c) =>
      let items := c.filter
        (fun t => !(RESERVED_NAMES.any (fun r => decide (t.name = r))))
      match sortByKeyDesc FSTree.mtime items with
      | [] => .ok "No files or repositories found in storage."
      | t :: _ => .ok (rl_output storage_path now fmt t disk dec)
  pyTry body read_latest_handler

/-! ### FileSynchronizer (synchronizer.py)

`sync_all_files` walks the whole source tree (no pruning) and calls
`sync_single_file` on every regular file; `sync_single_file` recreates the
relative path under the destination root and `shutil.copy2`s the file,
preserving content and timestamps.  The destination is modelled as a map
from relative-path segments to (content, mtime); directory creation
(`os.makedirs`) is implicit in the map model.  The collection below visits
each child in order (files of a directory interleave with subtree files
where `os.walk` lists a directory's files first; with distinct sibling
names the resulting destination map is the same). -/

mutual

def collectTree (pre : List String) : FSTree → List (List String × String × Nat)
  | .file n s m => [(pre ++ [n], s, m)]
  | .dir n _ cc => collectList (pre ++ [n]) cc

def collectList (pre : List String) : List FSTree → List (List String × String × Nat)
  | [] => []
  | t :: ts => collectTree pre t ++ collectList pre ts

end

abbrev DestFS := List (List String × String × Nat)

def lookupDest (d : DestFS) (k : List String) : Option (String × Nat) :=
  (d.find? (fun e => decide (e.1 = k))).map (fun e => e.2)

/-- `shutil.copy2`: overwrite the destination file, copying content and
    modification time. -/
def writeDest (d : DestFS) (k : List String) (content : String) (m : Nat) : DestFS :=
  (k, content, m) :: d.filter (fun e => !(decide (e.1 = k)))

def sync_single_file (d : DestFS) (e : List String × String × Nat) : DestFS :=
  writeDest d e.1 e.2.1 e.2.2

def sync_all_files (src : List FSTree) (d : DestFS) : DestFS :=
  (collectList [] src).foldl sync_single_file d

/-! ### Substring-containment lemmas -/

theorem isInfixB_iff (n h : List Char) : isInfixB n h = true ↔ n <:+: h := by
  induction h with
  | nil =>
    simp only [isInfixB, List.isEmpty_iff]
    constructor
    · intro h'; rw [h']
    · intro h'
      have := List.eq_nil_of_infix_nil h'
      exact this
  | cons a t ih =>
    simp only [isInfixB, Bool.or_eq_true, List.isPrefixOf_iff_prefix, ih]
    exact (List.infix_cons_iff).symm

theorem strContains_refl (s : String) : strContains s s = true :=
  (isInfixB_iff _ _).mpr (List.infix_refl _)

theorem string_data_append (a b : String) : (a ++ b).data = a.data ++ b.data := rfl

theorem strContains_append_right (a b n : String) (h : strContains a n = true) :
    strContains (a ++ b) n = true := by
  rw [strContains, string_data_append, isInfixB_iff]
  rcases (isInfixB_iff _ _).mp h with ⟨s, t, hst⟩
  exact ⟨s, t ++ b.data, by rw [← hst]; simp⟩

theorem strContains_append_left (a b n : String) (h : strContains b n = true) :
    strContains (a ++ b) n = true := by
  rw [strContains, string_data_append, isInfixB_iff]
  rcases (isInfixB_iff _ _).mp h with ⟨s, t, hst⟩
  exact ⟨a.data ++ s, t, by rw [← hst]; simp [List.append_assoc]⟩

theorem strContains_joinSep (sep : String) :
    ∀ (l : List String) (r : String), r ∈ l → strContains (joinSep sep l) r = true := by
  intro l
  induction l with
  | nil => intro r hr; cases hr
  | cons x xs ih =>
    intro r hr
    cases xs with
    | nil =>
      rcases List.mem_cons.mp hr with rfl | h
      · exact strContains_refl r
      · cases h
    | cons y ys =>
      rcases List.mem_cons.mp hr with rfl | h
      · rw [joinSep]
        exact strContains_append_right _ _ _
          (strContains_append_right _ _ _ (strContains_refl r))
      · rw [joinSep]
        exact strContains_append_left _ _ _ (ih r h)

theorem strStartsWith_append (p a b : String) (h : strStartsWith a p = true) :
    strStartsWith (a ++ b) p = true := by
  rw [strStartsWith, string_data_append, List.isPrefixOf_iff_prefix]
  rcases List.isPrefixOf_iff_prefix.mp h with ⟨t, ht⟩
  exact ⟨t ++ b.data, by rw [← ht]; simp⟩

/-! ### Head of a descending stable sort is maximal -/

theorem sortByKeyDesc_head_max {α : Type} (key : α → Nat) (l : List α) (p : α)
    (rest : List α) (h : sortByKeyDesc key l = p :: rest) :
    p ∈ l ∧ ∀ q ∈ l, key q ≤ key p := by
  have hperm := sortLe_perm (fun a b => decide (key b ≤ key a)) l
  have hs := @sortLe_sorted _ (fun a b => decide (key b ≤ key a))
    (fun a b => by
      rcases Nat.le_total (key b) (key a) with h' | h'
      · exact Or.inl (by simpa using h')
      · exact Or.inr (by simpa using h'))
    (fun a b c hab hbc => by
      simp only [decide_eq_true_eq] at hab hbc ⊢
      exact le_trans hbc hab) l
  rw [sortByKeyDesc] at h
  rw [h] at hperm hs
  constructor
  · exact hperm.subset (List.mem_cons_self p rest)
  · intro q hq
    have hq' : q ∈ p :: rest := hperm.mem_iff.mpr hq
    rcases List.mem_cons.mp hq' with rfl | hq''
    · exact le_refl _
    · have := (List.pairwise_cons.mp hs).1 q hq''
      simpa using this

/-! ### C1: the tool boundary never leaks an exception -/

theorem read_file_handler_ok (fn : String) : ∀ e, okE (read_file_handler fn e) = true := by
  intro e; cases e <;> rfl

theorem list_files_handler_ok (d : String) : ∀ e, okE (list_files_handler d e) = true := by
  intro e; cases e <;> rfl

theorem lfwf_handler_ok (d : String) : ∀ e, okE (lfwf_handler d e) = true := by
  intro e; cases e <;> rfl

theorem clone_handler_ok : ∀ e, okE (clone_handler e) = true := by
  intro e; cases e <;> rfl

theorem read_latest_handler_ok : ∀ e, okE (read_latest_handler e) = true := by
  intro e; cases e <;> rfl

/-- C1: For every input, each tool (read_file, list_files,
    list_files_within_folder, clone_github_repo, read_latest_content)
    returns a human-readable string on both success and failure; no
    exception ever escapes across the tool boundary.  Every raisable
    exception of the model (including any exception the opaque decoders or
    the git subprocess produce) ends in a handler chain closed by a
    catch-all `except Exception`, so the result is always `.ok` — a plain
    string. -/
theorem tools_always_return_strings
    (file_name directory folder url cwd home now : String)
    (cache storageNames : List String) (fs : String → Option FSTree)
    (disk : String → Option String) (dec : Decoders) (git : GitResult)
    (fmt : Nat → String) :
    okE (read_file file_name cache cwd fs disk dec).1 = true
    ∧ okE (list_files directory cwd home fs) = true
    ∧ okE (list_files_within_folder folder cwd fs).1 = true
    ∧ okE (clone_github_repo url cwd storageNames git).1 = true
    ∧ okE (read_latest_content cwd now fmt fs disk dec) = true := by
  refine ⟨?_, ?_, ?_, ?_, ?_⟩
  · by_cases h : strTrim file_name = ""
    · simp [read_file, h, okE]
    · simp only [read_file, if_neg h]
      exact pyTry_okE _ _ (read_file_handler_ok _)
  · rw [list_files]
    split
    · exact pyTry_okE _ _ (list_files_handler_ok _)
    · exact pyTry_okE _ _ (list_files_handler_ok _)
  · simp only [list_files_within_folder]
    exact pyTry_okE _ _ (lfwf_handler_ok _)
  · simp only [clone_github_repo]
    split
    · rfl
    · split
      · rfl
      · split
        · rfl
        · split
          · rfl
          · exact pyTry_okE _ _ clone_handler_ok
  · rw [read_latest_content]
    exact pyTry_okE _ _ read_latest_handler_ok

/-! ### A small concrete filesystem used by witnesses and counterexamples -/

def exProjA : FSTree := .dir "projA" 5 [.file "a.txt" "hello" 3]

def exStorage : FSTree := .dir "storage" 10 [exProjA, .file "top.txt" "tt" 7]

def exFS : String → Option FSTree := fun p =>
  if p = "/w/storage" then some exStorage
  else if p = "/w/storage/projA" then some exProjA
  else none

def exDisk : String → Option String := fun p =>
  if p = "/w/storage/projA/a.txt" then some "hello"
  else if p = "/w/storage/top.txt" then some "tt"
  else none

def exDec : Decoders := ⟨fun _ => .ok "PDF TEXT", fun _ => .ok "IMAGE B64"⟩

/-- The blocks produced by listing the storage root of the example tree. -/
def exBlocks : List DirBlock :=
  listDirBlocks (get_most_recent_directory exStorage.childrenOf) DEFAULT_MAX_DEPTH
    "/w/storage" exStorage.childrenOf

/-! ### C6: zero matches yield a NotFound error naming every root -/

/-- C6: For every query that matches zero candidates across all search
    roots, read_file returns a NotFound-shaped error string, and that
    string lists every root that was searched. -/
theorem read_file_not_found_lists_roots
    (file_name cwd : String) (cache : List String) (fs : String → Option FSTree)
    (disk : String → Option String) (dec : Decoders)
    (hne : ¬ strTrim file_name = "")
    (hnone : find_file_in_paths (strTrim file_name) (get_search_paths cwd fs) fs = none) :
    (read_file file_name cache cwd fs disk dec).1
      = .ok ("Error: File '" ++ strTrim file_name ++ "' not found.\nSearched in: "
          ++ joinSep ", " (get_search_paths cwd fs))
    ∧ ∀ r ∈ get_search_paths cwd fs,
        strContains ("Error: File '" ++ strTrim file_name ++ "' not found.\nSearched in: "
          ++ joinSep ", " (get_search_paths cwd fs)) r = true := by
  constructor
  · simp only [read_file, if_neg hne]
    rw [hnone]
    rfl
  · intro r hr
    exact strContains_append_left _ _ _ (strContains_joinSep _ _ _ hr)

theorem read_file_not_found_lists_roots_witness :
    (read_file "nosuch" [] "/w" exFS exDisk exDec).1
      = .ok ("Error: File '" ++ strTrim "nosuch" ++ "' not found.\nSearched in: "
          ++ joinSep ", " (get_search_paths "/w" exFS))
    ∧ ∀ r ∈ get_search_paths "/w" exFS,
        strContains ("Error: File '" ++ strTrim "nosuch" ++ "' not found.\nSearched in: "
          ++ joinSep ", " (get_search_paths "/w" exFS)) r = true :=
  read_file_not_found_lists_roots "nosuch" "/w" [] exFS exDisk exDec
    (by decide) (by decide)

/-! ### C2: the filename cache versus the directory walk -/

/-- C2 counterexample: "a.txt" is inserted into the cache by listing the
    storage root and the cache lookup finds it, yet the subsequent
    read_file call for that exact name still performs the directory walk —
    main.py:200-215 computes the cache match and never uses it, so the
    claim's "without requiring a new directory walk over the search roots"
    is false. -/
theorem cache_hit_still_walks_cex :
    "a.txt" ∈ listingCacheAdds exBlocks
    ∧ check_file_exists "a.txt" (listingCacheAdds exBlocks) = some "a.txt"
    ∧ (read_file "a.txt" (listingCacheAdds exBlocks) "/w" exFS exDisk exDec).2 = true := by
  exact ⟨by decide, by decide, rfl⟩

/-- C2 (amended): for any file name inserted into the shared filename cache
    by a listing operation, a subsequent cache lookup of that exact name
    succeeds (check_file_exists returns a match); read_file nevertheless
    always performs the directory walk over the search roots — the cached
    result is discarded, and the walk's outcome decides the reply. -/
theorem cache_hit_lookup_succeeds_but_walk_happens
    (name : String) (bs : List DirBlock) (cache : List String)
    (cwd : String) (fs : String → Option FSTree) (disk : String → Option String)
    (dec : Decoders)
    (hmem : name ∈ listingCacheAdds bs) (hname : strTrim name = name)
    (hne : ¬ name = "") :
    (∃ m, check_file_exists name (cache ++ listingCacheAdds bs) = some m)
    ∧ (read_file name (cache ++ listingCacheAdds bs) cwd fs disk dec).2 = true := by
  constructor
  · have hmem' : name ∈ cache ++ listingCacheAdds bs := List.mem_append_right _ hmem
    have hp : strContains (strLower name) (strLower name) = true := strContains_refl _
    rw [check_file_exists]
    have hsome : (List.find? (fun f => strContains (strLower f) (strLower name))
        (cache ++ listingCacheAdds bs)).isSome = true :=
      List.find?_isSome.mpr ⟨name, hmem', hp⟩
    rcases Option.isSome_iff_exists.mp hsome with ⟨m, hm⟩
    exact ⟨m, hm⟩
  · have h' : ¬ strTrim name = "" := by rw [hname]; exact hne
    simp [read_file, if_neg h']

theorem cache_hit_lookup_succeeds_but_walk_happens_witness :
    (∃ m, check_file_exists "a.txt" ([] ++ listingCacheAdds exBlocks) = some m)
    ∧ (read_file "a.txt" ([] ++ listingCacheAdds exBlocks) "/w" exFS exDisk exDec).2 = true :=
  cache_hit_lookup_succeeds_but_walk_happens "a.txt" exBlocks [] "/w" exFS exDisk exDec
    (by decide) (by decide) (by decide)

/-! ### C5: the empty-query guard -/

/-- C5 counterexample: a whitespace-only query is not rejected by
    list_files_within_folder — the matcher is invoked, and here the empty
    normalized query fuzzy-matches the first directory, whose listing is
    returned instead of an error. -/
theorem empty_query_matcher_invoked_cex :
    (list_files_within_folder " " "/w" exFS).2 = true
    ∧ (list_files_within_folder " " "/w" exFS).1
        = .ok "Directory: /w/storage/projA\n  Files: a.txt\n\n" :=
  ⟨rfl, rfl⟩

/-- C5 (amended): read_file rejects every empty or whitespace-only query
    and returns an error before the path matcher is invoked (walk flag
    false); list_files_within_folder performs no emptiness check and always
    invokes the matcher. -/
theorem empty_query_guard_amended (q : String) (hq : strTrim q = "")
    (cache : List String) (cwd home : String) (fs : String → Option FSTree)
    (disk : String → Option String) (dec : Decoders) (folder : String) :
    read_file q cache cwd fs disk dec = (.ok "Error: File name cannot be empty.", false)
    ∧ (list_files_within_folder folder cwd fs).2 = true := by
  constructor
  · simp [read_file, hq]
  · rfl

theorem empty_query_guard_amended_witness :
    read_file "   " [] "/w" exFS exDisk exDec
      = (.ok "Error: File name cannot be empty.", false)
    ∧ (list_files_within_folder " " "/w" exFS).2 = true :=
  empty_query_guard_amended "   " (by decide) [] "/w" "/h" exFS exDisk exDec " "

/-! ### C7: cloning onto an existing destination -/

/-- C7: when clone_github_repo is given a URL whose derived destination
    directory already exists, it returns a Warning-prefixed string (not an
    error), makes no clone attempt (the subprocess-invoked flag is false),
    and leaves the storage listing untouched. -/
theorem clone_existing_repo_warns
    (url cwd : String) (storageNames : List String) (git : GitResult)
    (hvalid : (strStartsWith (strTrim url) "http://"
        || strStartsWith (strTrim url) "https://"
        || strStartsWith (strTrim url) "git@") = true)
    (hname : ¬ derive_repo_name (strTrim url) = "")
    (hex : derive_repo_name (strTrim url) ∈ storageNames) :
    clone_github_repo url cwd storageNames git
      = (.ok ("Warning: Repository '" ++ derive_repo_name (strTrim url)
            ++ "' already exists at '"
            ++ pjoin (STORAGE_PATH cwd) (derive_repo_name (strTrim url)) ++ "'."),
          false, storageNames)
    ∧ strStartsWith ("Warning: Repository '" ++ derive_repo_name (strTrim url)
            ++ "' already exists at '"
            ++ pjoin (STORAGE_PATH cwd) (derive_repo_name (strTrim url)) ++ "'.")
        "Warning:" = true := by
  have hne : ¬ strTrim url = "" := by
    intro h
    rw [h] at hvalid
    exact absurd hvalid (by decide)
  have hany : (storageNames.any fun n => decide (n = derive_repo_name (strTrim url)))
      = true := by
    rw [List.any_eq_true]
    exact ⟨_, hex, by simp⟩
  constructor
  · simp only [clone_github_repo, if_neg hne, hvalid, Bool.not_true, if_neg hname, hany]
    simp
  · exact strStartsWith_append _ _ _ (strStartsWith_append _ _ _
      (strStartsWith_append _ _ _ (strStartsWith_append _ _ _ (by decide))))

theorem clone_existing_repo_warns_witness :
    clone_github_repo "https://github.com/u/projA.git" "/w" ["projA"] .success
      = (.ok ("Warning: Repository '"
            ++ derive_repo_name (strTrim "https://github.com/u/projA.git")
            ++ "' already exists at '"
            ++ pjoin (STORAGE_PATH "/w")
                (derive_repo_name (strTrim "https://github.com/u/projA.git")) ++ "'."),
          false, ["projA"])
    ∧ strStartsWith ("Warning: Repository '"
            ++ derive_repo_name (strTrim "https://github.com/u/projA.git")
            ++ "' already exists at '"
            ++ pjoin (STORAGE_PATH "/w")
                (derive_repo_name (strTrim "https://github.com/u/projA.git")) ++ "'.")
        "Warning:" = true :=
  clone_existing_repo_warns "https://github.com/u/projA.git" "/w" ["projA"] .success
    (by decide) (by decide) (by decide)

/-! ### C3: the synchronizer round-trip -/

theorem lookupDest_writeDest_self (d : DestFS) (k : List String) (content : String)
    (m : Nat) : lookupDest (writeDest d k content m) k = some (content, m) := by
  simp [lookupDest, writeDest, List.find?]

theorem find?_filter_ne (d : DestFS) (k k' : List String) (h : ¬ k' = k) :
    List.find? (fun e => decide (e.1 = k')) (d.filter (fun e => !(decide (e.1 = k))))
      = List.find? (fun e => decide (e.1 = k')) d := by
  have hsymm : ¬ k = k' := fun hh => h hh.symm
  induction d with
  | nil => rfl
  | cons e es ih =>
    by_cases he : e.1 = k
    · have hne : ¬ e.1 = k' := by rw [he]; exact fun hh => h hh.symm
      simp [List.filter_cons, he, List.find?_cons, hne, ih, hsymm, h]
    · by_cases he' : e.1 = k'
      · simp [List.filter_cons, he, List.find?_cons, he', hsymm, h]
      · simp [List.filter_cons, he, List.find?_cons, he', ih, hsymm, h]

theorem lookupDest_writeDest_other (d : DestFS) (k k' : List String)
    (content : String) (m : Nat) (h : ¬ k' = k) :
    lookupDest (writeDest d k content m) k' = lookupDest d k' := by
  have hkk : (decide (((k, content, m) : List String × String × Nat).1 = k')) = false :=
    decide_eq_false (fun hh => h hh.symm)
  simp only [lookupDest, writeDest, List.find?_cons, hkk]
  rw [find?_filter_ne d k k' h]

theorem foldl_sync_of_not_key (l : List (List String × String × Nat)) :
    ∀ (d : DestFS) (k : List String), (∀ e ∈ l, ¬ e.1 = k) →
      lookupDest (l.foldl sync_single_file d) k = lookupDest d k := by
  induction l with
  | nil => intro d k _; rfl
  | cons e es ih =>
    intro d k h
    rw [List.foldl_cons]
    rw [ih _ _ (fun e' he' => h e' (List.mem_cons_of_mem _ he'))]
    exact lookupDest_writeDest_other d e.1 k e.2.1 e.2.2
      (fun hk => h e (List.mem_cons_self _ _) hk.symm)

theorem foldl_sync_mem (l : List (List String × String × Nat)) :
    ∀ (d : DestFS) (e : List String × String × Nat), e ∈ l →
      (l.map (fun x => x.1)).Nodup →
      lookupDest (l.foldl sync_single_file d) e.1 = some e.2 := by
  induction l with
  | nil => intro d e he _; cases he
  | cons x xs ih =>
    intro d e he hnd
    rw [List.foldl_cons]
    simp only [List.map_cons, List.nodup_cons] at hnd
    rcases List.mem_cons.mp he with rfl | he'
    · rw [foldl_sync_of_not_key xs _ _ ?_]
      · exact lookupDest_writeDest_self d e.1 e.2.1 e.2.2
      · intro e' he'' hk
        exact hnd.1 (hk ▸ (List.mem_map_of_mem (fun x => x.1) he''))
    · exact ih _ e he' hnd.2

mutual

theorem collectTree_key_shape (pre : List String) (t : FSTree) :
    ∀ k, k ∈ (collectTree pre t).map (fun e => e.1) →
      ∃ rest, k = pre ++ t.name :: rest := by
  cases t with
  | file n s m =>
    intro k hk
    simp only [collectTree, List.map_cons, List.map_nil, List.mem_singleton] at hk
    exact ⟨[], by simpa [FSTree.name] using hk⟩
  | dir n m cc =>
    intro k hk
    rcases collectList_key_shape (pre ++ [n]) cc k (by simpa [collectTree] using hk)
      with ⟨n', rest', _, hk'⟩
    exact ⟨n' :: rest', by simpa [FSTree.name, List.append_assoc] using hk'⟩

theorem collectList_key_shape (pre : List String) (c : List FSTree) :
    ∀ k, k ∈ (collectList pre c).map (fun e => e.1) →
      ∃ n rest, n ∈ c.map FSTree.name ∧ k = pre ++ n :: rest := by
  cases c with
  | nil => intro k hk; simp [collectList] at hk
  | cons t ts =>
    intro k hk
    rw [collectList, List.map_append] at hk
    rcases List.mem_append.mp hk with hk' | hk'
    · rcases collectTree_key_shape pre t k hk' with ⟨rest, hrest⟩
      exact ⟨t.name, rest, List.mem_cons_self _ _, hrest⟩
    · rcases collectList_key_shape pre ts k hk' with ⟨n, rest, hn, hrest⟩
      exact ⟨n, rest, List.mem_cons_of_mem _ hn, hrest⟩

end

mutual

theorem collectTree_keys_nodup (pre : List String) (t : FSTree)
    (h : t.wfB = true) : ((collectTree pre t).map (fun e => e.1)).Nodup := by
  cases t with
  | file n s m => simp [collectTree]
  | dir n m cc =>
    exact collectList_keys_nodup (pre ++ [n]) cc
      (by simpa [FSTree.wfB, wfListB] using h)

theorem collectList_keys_nodup (pre : List String) (c : List FSTree)
    (h : wfListB c = true) : ((collectList pre c).map (fun e => e.1)).Nodup := by
  cases c with
  | nil => simp [collectList]
  | cons t ts =>
    rw [wfListB, Bool.and_eq_true] at h
    rcases h with ⟨hnd, hall⟩
    rw [nodupB_iff, List.map_cons, List.nodup_cons] at hnd
    rw [wfAllB, Bool.and_eq_true] at hall
    rw [collectList, List.map_append]
    refine List.Nodup.append (collectTree_keys_nodup pre t hall.1)
      (collectList_keys_nodup pre ts
        (by rw [wfListB, Bool.and_eq_true, nodupB_iff]; exact ⟨hnd.2, hall.2⟩)) ?_
    intro k hk1 hk2
    rcases collectTree_key_shape pre t k hk1 with ⟨rest, hrest⟩
    rcases collectList_key_shape pre ts k hk2 with ⟨n', rest', hn', hrest'⟩
    rw [hrest] at hrest'
    have := List.append_cancel_left hrest'
    have hname : t.name = n' := (List.cons.injEq _ _ _ _ ▸ this).1
    exact hnd.1 (hname ▸ hn')

end

/-- C3: after sync_all_files over a well-formed source tree (distinct
    sibling names at every level, as on a real filesystem), every regular
    file collected under the source root — relative path `e.1`, content
    `e.2.1`, mtime `e.2.2` — is present in the destination map at the same
    relative path with identical content and modification time (`copy2`
    preserves the timestamp exactly in the model; destination directories
    are implicit in the path-keyed map). -/
theorem sync_all_round_trip (src : List FSTree) (d : DestFS)
    (hwf : wfListB src = true) :
    ∀ e ∈ collectList [] src, lookupDest (sync_all_files src d) e.1 = some e.2 := by
  intro e he
  rw [sync_all_files]
  exact foldl_sync_mem _ _ _ he (collectList_keys_nodup [] src hwf)

theorem sync_all_round_trip_witness :
    lookupDest (sync_all_files [.dir "a" 1 [.file "b.txt" "hi" 42]] [])
        (["a", "b.txt"] : List String) = some ("hi", 42) :=
  sync_all_round_trip [.dir "a" 1 [.file "b.txt" "hi" 42]] [] (by decide)
    (["a", "b.txt"], "hi", 42) (by decide)

/-! ### C4: read_latest_content picks the greatest modification time -/

/-- C4: read_latest_content selects, among the immediate children of the
    storage root excluding the reserved names .git, .github and .DS_Store,
    an entry of greatest modification time, and the reply is the output
    attributed to that entry (rl_output opens with a header naming it). -/
theorem read_latest_selects_max_mtime
    (cwd now : String) (fmt : Nat → String) (fs : String → Option FSTree)
    (disk : String → Option String) (dec : Decoders)
    (sn : String) (sm : Nat) (c : List FSTree)
    (hfs : fs (STORAGE_PATH cwd) = some (.dir sn sm c))
    (hne : (c.filter (fun t =>
        !(RESERVED_NAMES.any (fun r => decide (t.name = r))))).isEmpty = false) :
    ∃ t, t ∈ c.filter (fun u => !(RESERVED_NAMES.any (fun r => decide (u.name = r))))
      ∧ (∀ u ∈ c.filter (fun u => !(RESERVED_NAMES.any (fun r => decide (u.name = r)))),
          u.mtime ≤ t.mtime)
      ∧ read_latest_content cwd now fmt fs disk dec
          = .ok (rl_output (STORAGE_PATH cwd) now fmt t disk dec) := by
  cases hsort : sortByKeyDesc FSTree.mtime
      (c.filter (fun u => !(RESERVED_NAMES.any (fun r => decide (u.name = r))))) with
  | nil =>
    have hperm := sortLe_perm (fun a b => decide (FSTree.mtime b ≤ FSTree.mtime a))
      (c.filter (fun u => !(RESERVED_NAMES.any (fun r => decide (u.name = r)))))
    rw [sortByKeyDesc] at hsort
    rw [hsort] at hperm
    rw [hperm.symm.eq_nil] at hne
    simp [List.isEmpty] at hne
  | cons t rest =>
    have hmax := sortByKeyDesc_head_max FSTree.mtime _ t rest hsort
    refine ⟨t, hmax.1, hmax.2, ?_⟩
    simp only [read_latest_content, hfs]
    rw [hsort]
    rfl

def exLatestFS : String → Option FSTree := fun p =>
  if p = "/w/storage" then
    some (.dir "storage" 9
      [.file "old.txt" "old content" 1, .file "new.txt" "new content" 2])
  else none

theorem read_latest_selects_max_mtime_witness :
    ∃ t, t ∈ (([.file "old.txt" "old content" 1, .file "new.txt" "new content" 2] :
          List FSTree).filter
          (fun u => !(RESERVED_NAMES.any (fun r => decide (u.name = r)))))
      ∧ (∀ u ∈ (([.file "old.txt" "old content" 1, .file "new.txt" "new content" 2] :
            List FSTree).filter
            (fun u => !(RESERVED_NAMES.any (fun r => decide (u.name = r))))),
          u.mtime ≤ t.mtime)
      ∧ read_latest_content "/w" "NOW" (fun _ => "T") exLatestFS exDisk exDec
          = .ok (rl_output (STORAGE_PATH "/w") "NOW" (fun _ => "T") t exDisk exDec) :=
  read_latest_selects_max_mtime "/w" "NOW" (fun _ => "T") exLatestFS exDisk exDec
    "storage" 9 [.file "old.txt" "old content" 1, .file "new.txt" "new content" 2]
    rfl (by decide)

/-! ### C8: depth-bounded listing -/

theorem listDirBlocksAux_depth_bounds (most : Option String) :
    ∀ (budget : Nat) (path : String) (c : List FSTree) (d : Nat),
      ∀ blk ∈ listDirBlocksAux most budget path c d,
        d ≤ blk.depth ∧ blk.depth ≤ d + budget := by
  intro budget
  induction budget with
  | zero =>
    intro path c d blk hblk
    simp only [listDirBlocksAux, List.mem_singleton] at hblk
    subst hblk
    simp [mkDirBlock]
  | succ b ih =>
    intro path c d blk hblk
    rw [listDirBlocksAux] at hblk
    rcases List.mem_cons.mp hblk with rfl | hblk'
    · simp [mkDirBlock]
    · rcases List.mem_flatMap.mp hblk' with ⟨t, ht, hin⟩
      have := ih (pjoin path t.name) t.childrenOf (d + 1) blk hin
      omega

theorem filter_flatMap_comm {α β : Type} (l : List α) (g : α → List β) (p : β → Bool) :
    (l.flatMap g).filter p = l.flatMap (fun x => (g x).filter p) := by
  induction l with
  | nil => rfl
  | cons x xs ih => simp [List.flatMap_cons, List.filter_append, ih]

theorem flatMap_congr_mem {α β : Type} (l : List α) (f g : α → List β)
    (h : ∀ x ∈ l, f x = g x) : l.flatMap f = l.flatMap g := by
  induction l with
  | nil => rfl
  | cons x xs ih =>
    rw [List.flatMap_cons, List.flatMap_cons, h x (List.mem_cons_self x xs),
      ih (fun y hy => h y (List.mem_cons_of_mem _ hy))]

theorem listDirBlocksAux_filter (most : Option String) :
    ∀ (b k : Nat) (path : String) (c : List FSTree) (d : Nat),
      (listDirBlocksAux most (b + k) path c d).filter
          (fun blk => decide (blk.depth ≤ d + b))
        = listDirBlocksAux most b path c d := by
  intro b
  induction b with
  | zero =>
    intro k path c d
    cases k with
    | zero => simp [listDirBlocksAux, mkDirBlock]
    | succ k' =>
      rw [Nat.zero_add]
      simp only [listDirBlocksAux]
      rw [List.filter_cons]
      have hhd : (decide ((mkDirBlock most path c d).depth ≤ d + 0)) = true := by
        simp [mkDirBlock]
      rw [hhd]
      have htail : ((sortedDirTrees c).flatMap
          (fun t => listDirBlocksAux most k' (pjoin path t.name) t.childrenOf (d + 1))).filter
            (fun blk => decide (blk.depth ≤ d + 0)) = [] := by
        rw [List.filter_eq_nil_iff]
        intro blk hblk
        rcases List.mem_flatMap.mp hblk with ⟨t, _, hin⟩
        have := listDirBlocksAux_depth_bounds most k' (pjoin path t.name)
          t.childrenOf (d + 1) blk hin
        simp only [decide_eq_true_eq]
        omega
      rw [htail]
      simp
  | succ b' ih =>
    intro k path c d
    have harith : b' + 1 + k = (b' + k) + 1 := by omega
    rw [harith]
    simp only [listDirBlocksAux]
    rw [List.filter_cons]
    have hhd : (decide ((mkDirBlock most path c d).depth ≤ d + (b' + 1))) = true := by
      simp [mkDirBlock]
    rw [hhd]
    simp only [if_true, if_pos trivial]
    congr 1
    rw [filter_flatMap_comm]
    refine flatMap_congr_mem _ _ _ ?_
    intro t _
    have harith2 : d + (b' + 1) = (d + 1) + b' := by omega
    rw [harith2]
    exact ih k (pjoin path t.name) t.childrenOf (d + 1)

/-- C8: directory listing is depth-bounded: every visited block of an
    N-bounded listing lies at depth ≤ N; with max_depth = 0 the listing is
    exactly the root block (the root's immediate files and subdirectories —
    a subdirectory is named there but never visited); and restricting an
    N-bounded listing to depths ≤ M (M ≤ N) is precisely the M-bounded
    listing, so depth N visits exactly N levels of subdirectories below
    the root. -/
theorem listing_depth_bounded (most : Option String) (path : String)
    (c : List FSTree) (N M : Nat) (hMN : M ≤ N) :
    (∀ blk ∈ listDirBlocks most N path c, blk.depth ≤ N)
    ∧ listDirBlocks most 0 path c = [mkDirBlock most path c 0]
    ∧ (listDirBlocks most N path c).filter (fun blk => decide (blk.depth ≤ M))
        = listDirBlocks most M path c := by
  refine ⟨?_, rfl, ?_⟩
  · intro blk hblk
    have := listDirBlocksAux_depth_bounds most N path c 0 blk hblk
    omega
  · obtain ⟨k, rfl⟩ : ∃ k, N = M + k := ⟨N - M, by omega⟩
    have := listDirBlocksAux_filter most M k path c 0
    simpa using this

theorem listing_depth_bounded_witness :
    (∀ blk ∈ listDirBlocks none 0 "/w/root"
        [.dir "sub" 1 [.file "deep.txt" "x" 2]], blk.depth ≤ 0)
    ∧ listDirBlocks none 0 "/w/root" [.dir "sub" 1 [.file "deep.txt" "x" 2]]
        = [mkDirBlock none "/w/root" [.dir "sub" 1 [.file "deep.txt" "x" 2]] 0]
    ∧ (listDirBlocks none 0 "/w/root" [.dir "sub" 1 [.file "deep.txt" "x" 2]]).filter
          (fun blk => decide (blk.depth ≤ 0))
        = listDirBlocks none 0 "/w/root" [.dir "sub" 1 [.file "deep.txt" "x" 2]] :=
  listing_depth_bounded none "/w/root" [.dir "sub" 1 [.file "deep.txt" "x" 2]] 0 0
    (by decide)

/-! ### C10: the [MOST RECENT] annotation -/

/-- Erase the most-recent marks of a block, keeping everything else. -/
def stripMark (b : DirBlock) : DirBlock :=
  { b with subdirs := b.subdirs.map (fun p => (p.1, false)) }

theorem stripMark_mkDirBlock (most : Option String) (path : String)
    (c : List FSTree) (d : Nat) :
    stripMark (mkDirBlock most path c d) = mkDirBlock none path c d := by
  simp [stripMark, mkDirBlock, List.map_map, Function.comp]

theorem listDirBlocksAux_stripMark (most : Option String) :
    ∀ (budget : Nat) (path : String) (c : List FSTree) (d : Nat),
      (listDirBlocksAux most budget path c d).map stripMark
        = listDirBlocksAux none budget path c d := by
  intro budget
  induction budget with
  | zero =>
    intro path c d
    simp only [listDirBlocksAux, List.map_cons, List.map_nil]
    rw [stripMark_mkDirBlock]
  | succ b ih =>
    intro path c d
    simp only [listDirBlocksAux, List.map_cons]
    rw [stripMark_mkDirBlock, List.map_flatMap]
    congr 1
    exact flatMap_congr_mem _ _ _
      (fun t _ => ih (pjoin path t.name) t.childrenOf (d + 1))

theorem marked_only_top (most : Option String) :
    ∀ (budget : Nat) (path : String) (c : List FSTree) (d : Nat)
      (blk : DirBlock) (dn : String),
      blk ∈ listDirBlocksAux most budget path c d → (dn, true) ∈ blk.subdirs →
      blk.depth = 0 ∧ most = some dn := by
  have hmk : ∀ (path : String) (c : List FSTree) (d : Nat) (dn : String),
      (dn, true) ∈ (mkDirBlock most path c d).subdirs → d = 0 ∧ most = some dn := by
    intro path c d dn hin
    simp only [mkDirBlock, List.mem_map] at hin
    rcases hin with ⟨x, _, hx⟩
    have h1 : x = dn := congrArg Prod.fst hx
    have h2 : (decide (d = 0) && decide (most = some x)) = true :=
      congrArg Prod.snd hx
    rw [Bool.and_eq_true, decide_eq_true_eq, decide_eq_true_eq] at h2
    exact ⟨h2.1, h1 ▸ h2.2⟩
  intro budget
  induction budget with
  | zero =>
    intro path c d blk dn hblk hin
    simp only [listDirBlocksAux, List.mem_singleton] at hblk
    subst hblk
    rcases hmk path c d dn hin with ⟨h1, h2⟩
    exact ⟨h1, h2⟩
  | succ b ih =>
    intro path c d blk dn hblk hin
    rw [listDirBlocksAux] at hblk
    rcases List.mem_cons.mp hblk with rfl | hblk'
    · rcases hmk path c d dn hin with ⟨h1, h2⟩
      exact ⟨h1, h2⟩
    · rcases List.mem_flatMap.mp hblk' with ⟨t, _, hin'⟩
      exact ih (pjoin path t.name) t.childrenOf (d + 1) blk dn hin' hin

theorem eq_of_mem_nodup_map {α β : Type} (f : α → β) :
    ∀ (l : List α), ((l.map f).Nodup) → ∀ a ∈ l, ∀ b ∈ l, f a = f b → a = b := by
  intro l
  induction l with
  | nil => intro _ a ha; cases ha
  | cons x xs ih =>
    intro hnd a ha b hb hf
    simp only [List.map_cons, List.nodup_cons] at hnd
    rcases List.mem_cons.mp ha with rfl | ha'
    · rcases List.mem_cons.mp hb with rfl | hb'
      · rfl
      · exact absurd (hf ▸ List.mem_map_of_mem f hb') hnd.1
    · rcases List.mem_cons.mp hb with rfl | hb'
      · exact absurd (hf.symm ▸ List.mem_map_of_mem f ha') hnd.1
      · exact ih hnd.2 a ha' b hb' hf

theorem get_most_recent_directory_max (c : List FSTree) (dn : String)
    (h : get_most_recent_directory c = some dn) :
    ∃ t ∈ c, t.isDir = true ∧ t.name = dn
      ∧ ∀ u ∈ c, u.isDir = true → ¬ u.name = ".git" → ¬ u.name = ".github" →
          u.mtime ≤ t.mtime := by
  rw [get_most_recent_directory] at h
  cases hsort : sortByKeyDesc (fun p => p.2) (mrCandidates c) with
  | nil => rw [hsort] at h; cases h
  | cons p rest =>
    rw [hsort] at h
    have hp : p.1 = dn := Option.some.inj h
    have hmax := sortByKeyDesc_head_max (fun q => q.2) (mrCandidates c) p rest hsort
    rcases List.mem_map.mp ((by simpa [mrCandidates] using hmax.1 :
        p ∈ (c.filter (fun t => t.isDir
          && !(decide (t.name = ".git") || decide (t.name = ".github")))).map
          (fun t => (t.name, t.mtime)))) with ⟨t, htf, htp⟩
    have htc := List.mem_of_mem_filter htf
    have htq := List.of_mem_filter htf
    rw [Bool.and_eq_true] at htq
    refine ⟨t, htc, htq.1, ?_, ?_⟩
    · rw [← hp, ← htp]
    · intro u hu hud hug hugh
      have huq : u ∈ c.filter (fun t => t.isDir
          && !(decide (t.name = ".git") || decide (t.name = ".github"))) := by
        refine List.mem_filter.mpr ⟨hu, ?_⟩
        simp [hud, hug, hugh]
      have := hmax.2 (u.name, u.mtime)
        (by rw [mrCandidates]; exact List.mem_map_of_mem _ huq)
      have ht2 : t.mtime = p.2 := congrArg Prod.snd htp
      rw [ht2]
      exact this

/-- C10 (amended): the [MOST RECENT] annotation is attached at depth 0 of
    whatever directory build_files lists — not only the top-level storage
    root (see the counterexample).  It marks exactly the name selected by
    get_most_recent_directory over that root's children, which is a
    maximal-modification-time immediate subdirectory (directories only,
    .git/.github excluded); at most one name is marked; and the annotation
    is cosmetic: erasing the marks yields the listing computed with no
    most-recent name at all — identical paths, identical sort order,
    identical recursion. -/
theorem most_recent_marker_amended (most : Option String) (path : String)
    (c : List FSTree) (N : Nat) :
    (∀ blk ∈ listDirBlocks most N path c, ∀ dn : String,
        (dn, true) ∈ blk.subdirs → blk.depth = 0 ∧ most = some dn)
    ∧ (∀ blk ∈ listDirBlocks most N path c, ∀ d₁ d₂ : String,
        (d₁, true) ∈ blk.subdirs → (d₂, true) ∈ blk.subdirs → d₁ = d₂)
    ∧ ((listDirBlocks most N path c).map stripMark = listDirBlocks none N path c)
    ∧ (∀ dn : String, get_most_recent_directory c = some dn →
        ∃ t ∈ c, t.isDir = true ∧ t.name = dn
          ∧ ∀ u ∈ c, u.isDir = true → ¬ u.name = ".git" → ¬ u.name = ".github" →
              u.mtime ≤ t.mtime) := by
  refine ⟨?_, ?_, ?_, ?_⟩
  · intro blk hblk dn hdn
    exact marked_only_top most N path c 0 blk dn hblk hdn
  · intro blk hblk d₁ d₂ h₁ h₂
    have m₁ := (marked_only_top most N path c 0 blk d₁ hblk h₁).2
    have m₂ := (marked_only_top most N path c 0 blk d₂ hblk h₂).2
    rw [m₁] at m₂
    exact Option.some.inj m₂
  · exact listDirBlocksAux_stripMark most N path c 0
  · intro dn h
    exact get_most_recent_directory_max c dn h

theorem most_recent_marker_amended_witness :
    ((mkDirBlock (get_most_recent_directory exStorage.childrenOf) "/w/storage"
        exStorage.childrenOf 0).depth = 0
      ∧ get_most_recent_directory exStorage.childrenOf = some "projA")
    ∧ (exBlocks.map stripMark
        = listDirBlocks none DEFAULT_MAX_DEPTH "/w/storage" exStorage.childrenOf)
    ∧ (∃ t ∈ exStorage.childrenOf, t.isDir = true ∧ t.name = "projA"
        ∧ ∀ u ∈ exStorage.childrenOf, u.isDir = true → ¬ u.name = ".git" →
            ¬ u.name = ".github" → u.mtime ≤ t.mtime) := by
  have h := most_recent_marker_amended (get_most_recent_directory exStorage.childrenOf)
    "/w/storage" exStorage.childrenOf DEFAULT_MAX_DEPTH
  exact ⟨h.1 _ (by decide) "projA" (by decide), h.2.2.1, h.2.2.2 "projA" (by decide)⟩

def exRepo : FSTree := .dir "projB" 6 [.dir "inner" 2 [], .file "r.txt" "rr" 4]

def exFS10 : String → Option FSTree := fun p =>
  if p = "/w/storage" then some (.dir "storage" 10 [exRepo])
  else if p = "/w/storage/projB" then some exRepo
  else none

def exMarkerOut : String :=
  "Directory: /w/storage/projB\n  Subdirectories: inner [MOST RECENT]\n  Files: r.txt\n\nDirectory: /w/storage/projB/inner\n\n"

/-- C10 counterexample: listing the directory /w/storage/projB — which is
    not the top-level storage root /w/storage — still carries the
    [MOST RECENT] annotation: build_files computes the most recent
    subdirectory of whatever directory it is given and marks it at depth 0,
    so the annotation is not limited to the storage root. -/
theorem marker_not_only_storage_cex :
    (list_files_within_folder "projB" "/w" exFS10).1 = .ok exMarkerOut
    ∧ strContains exMarkerOut "[MOST RECENT]" = true
    ∧ ¬ pjoin (STORAGE_PATH "/w") "projB" = STORAGE_PATH "/w" :=
  ⟨rfl, by decide, by decide⟩

/-! ### C9: lexicographic emission and output determinism -/

theorem sorted_perm_eq_of_antisymm {α : Type} {le : α → α → Bool}
    (hanti : ∀ a b, le a b = true → le b a = true → a = b) :
    ∀ {l₁ l₂ : List α}, l₁.Pairwise (fun a b => le a b = true) →
      l₂.Pairwise (fun a b => le a b = true) → List.Perm l₁ l₂ → l₁ = l₂ := by
  intro l₁
  induction l₁ with
  | nil => intro l₂ _ _ hp; exact (hp.symm.eq_nil).symm
  | cons x xs ih =>
    intro l₂ h1 h2 hp
    cases l₂ with
    | nil => exact absurd hp.eq_nil (by simp)
    | cons y ys =>
      rcases List.pairwise_cons.mp h1 with ⟨hx, hxs⟩
      rcases List.pairwise_cons.mp h2 with ⟨hy, hys⟩
      have hxy : x = y := by
        have hxmem : x ∈ y :: ys := hp.mem_iff.mp (List.mem_cons_self x xs)
        have hymem : y ∈ x :: xs := hp.mem_iff.mpr (List.mem_cons_self y ys)
        rcases List.mem_cons.mp hxmem with h | hxys
        · exact h
        · rcases List.mem_cons.mp hymem with h | hyxs
          · exact h.symm
          · exact hanti x y (hx y hyxs) (hy x hxys)
      subst hxy
      rw [ih hxs hys hp.cons_inv]

theorem sortStrings_perm_eq {l₁ l₂ : List String} (h : List.Perm l₁ l₂) :
    sortStrings l₁ = sortStrings l₂ :=
  sorted_perm_eq_of_antisymm strLeB_antisymm
    (sortLe_sorted strLeB_total strLeB_trans l₁)
    (sortLe_sorted strLeB_total strLeB_trans l₂)
    (((sortLe_perm _ l₁).trans h).trans (sortLe_perm _ l₂).symm)

theorem mkDirBlock_subdir_names (most : Option String) (path : String)
    (c : List FSTree) (d : Nat) :
    (mkDirBlock most path c d).subdirs.map Prod.fst = sortStrings (dirNames c) := by
  simp only [mkDirBlock, List.map_map]
  exact List.map_id _ ▸ List.map_congr_left (fun x _ => rfl)

theorem dirNames_ne_git (c : List FSTree) (x : String) (hx : x ∈ dirNames c) :
    ¬ x = ".git" := by
  rw [dirNames] at hx
  rcases List.mem_map.mp hx with ⟨t, htf, rfl⟩
  have := List.of_mem_filter htf
  rw [Bool.and_eq_true] at this
  simpa using this.2

theorem listDirBlocksAux_sorted (most : Option String) :
    ∀ (budget : Nat) (path : String) (c : List FSTree) (d : Nat),
      ∀ blk ∈ listDirBlocksAux most budget path c d,
        (blk.subdirs.map Prod.fst).Pairwise (fun a b => strLeB a b = true)
        ∧ blk.files.Pairwise (fun a b => strLeB a b = true)
        ∧ ".git" ∉ blk.subdirs.map Prod.fst := by
  have hmk : ∀ (path : String) (c : List FSTree) (d : Nat),
      ((mkDirBlock most path c d).subdirs.map Prod.fst).Pairwise
          (fun a b => strLeB a b = true)
      ∧ (mkDirBlock most path c d).files.Pairwise (fun a b => strLeB a b = true)
      ∧ ".git" ∉ (mkDirBlock most path c d).subdirs.map Prod.fst := by
    intro path c d
    rw [mkDirBlock_subdir_names]
    refine ⟨sortLe_sorted strLeB_total strLeB_trans _, ?_, ?_⟩
    · exact sortLe_sorted strLeB_total strLeB_trans _
    · intro hmem
      exact dirNames_ne_git c ".git" (mem_sortLe.mp hmem) rfl
  intro budget
  induction budget with
  | zero =>
    intro path c d blk hblk
    simp only [listDirBlocksAux, List.mem_singleton] at hblk
    subst hblk
    exact hmk path c d
  | succ b ih =>
    intro path c d blk hblk
    rw [listDirBlocksAux] at hblk
    rcases List.mem_cons.mp hblk with rfl | hblk'
    · exact hmk path c d
    · rcases List.mem_flatMap.mp hblk' with ⟨t, _, hin⟩
      exact ih (pjoin path t.name) t.childrenOf (d + 1) blk hin

theorem canonMap_names (c : List FSTree) :
    (canonMap c).map FSTree.name = c.map FSTree.name := by
  rw [canonMap_eq_map, List.map_map]
  exact List.map_congr_left (fun t _ => canon_name t)

theorem canon_preserves_pred (p : FSTree → Bool)
    (hp : ∀ t, p t.canon = p t) (c : List FSTree) :
    (canonMap c).filter p = canonMap (c.filter p) := by
  rw [canonMap_eq_map, canonMap_eq_map, List.filter_map]
  congr 1
  exact List.filter_congr (fun t _ => hp t)

theorem canon_childrenOf (t : FSTree) :
    t.canon.childrenOf = canonList t.childrenOf := by
  cases t with
  | file n s m => rfl
  | dir n m cc => rfl

theorem byName_total (a b : FSTree) :
    (strLeB a.name b.name) = true ∨ (strLeB b.name a.name) = true :=
  strLeB_total a.name b.name

theorem byName_trans (a b c : FSTree) (hab : strLeB a.name b.name = true)
    (hbc : strLeB b.name c.name = true) : strLeB a.name c.name = true :=
  strLeB_trans a.name b.name c.name hab hbc

theorem pairwise_byName_canonMap {l : List FSTree}
    (h : l.Pairwise (fun a b => strLeB a.name b.name = true)) :
    (canonMap l).Pairwise (fun a b => strLeB a.name b.name = true) := by
  rw [canonMap_eq_map]
  refine List.Pairwise.map FSTree.canon ?_ h
  intro a b hab
  rwa [canon_name, canon_name]

theorem dirNames_canonList_perm (c : List FSTree) :
    List.Perm (dirNames (canonList c)) (dirNames c) := by
  rw [dirNames, dirNames, canonList]
  have hpred : ∀ t : FSTree,
      (t.canon.isDir && !(decide (t.canon.name = ".git")))
        = (t.isDir && !(decide (t.name = ".git"))) := by
    intro t; rw [canon_isDir, canon_name]
  have h1 : List.Perm
      ((sortTreesByName (canonMap c)).filter
        (fun t => t.isDir && !(decide (t.name = ".git"))))
      ((canonMap c).filter (fun t => t.isDir && !(decide (t.name = ".git")))) :=
    (sortLe_perm _ _).filter _
  have h2 : (canonMap c).filter (fun t => t.isDir && !(decide (t.name = ".git")))
      = canonMap (c.filter (fun t => t.isDir && !(decide (t.name = ".git")))) :=
    canon_preserves_pred _ hpred c
  have h3 := h1.map FSTree.name
  rw [h2, canonMap_names] at h3
  exact h3

theorem fileNames_canonList_perm (c : List FSTree) :
    List.Perm (fileNames (canonList c)) (fileNames c) := by
  rw [fileNames, fileNames, canonList]
  have hpred : ∀ t : FSTree, (!t.canon.isDir) = (!t.isDir) := by
    intro t; rw [canon_isDir]
  have h1 : List.Perm
      ((sortTreesByName (canonMap c)).filter (fun t => !t.isDir))
      ((canonMap c).filter (fun t => !t.isDir)) :=
    (sortLe_perm _ _).filter _
  have h2 : (canonMap c).filter (fun t => !t.isDir)
      = canonMap (c.filter (fun t => !t.isDir)) :=
    canon_preserves_pred _ hpred c
  have h3 := h1.map FSTree.name
  rw [h2, canonMap_names] at h3
  exact h3

theorem mkDirBlock_canonList (most : Option String) (path : String)
    (c : List FSTree) (d : Nat) :
    mkDirBlock most path (canonList c) d = mkDirBlock most path c d := by
  simp only [mkDirBlock]
  rw [sortStrings_perm_eq (dirNames_canonList_perm c),
    sortStrings_perm_eq (fileNames_canonList_perm c)]

theorem names_canonList_perm (c : List FSTree) :
    List.Perm ((canonList c).map FSTree.name) (c.map FSTree.name) := by
  rw [canonList]
  have h1 := (sortLe_perm (fun a b => strLeB a.name b.name) (canonMap c)).map FSTree.name
  rw [canonMap_names] at h1
  exact h1

theorem sortedDirTrees_canonList (c : List FSTree)
    (hnd : (c.map FSTree.name).Nodup) :
    sortedDirTrees (canonList c) = canonMap (sortedDirTrees c) := by
  have hpred : ∀ t : FSTree,
      (t.canon.isDir && !(decide (t.canon.name = ".git")))
        = (t.isDir && !(decide (t.name = ".git"))) := by
    intro t; rw [canon_isDir, canon_name]
  -- both sides are permutations of canonMap (c.filter dirPred)
  have hLc : List.Perm
      ((canonList c).filter (fun t => t.isDir && !(decide (t.name = ".git"))))
      (canonMap (c.filter (fun t => t.isDir && !(decide (t.name = ".git"))))) := by
    rw [canonList, ← canon_preserves_pred _ hpred c]
    exact (sortLe_perm _ _).filter _
  have hL : List.Perm (sortedDirTrees (canonList c))
      (canonMap (c.filter (fun t => t.isDir && !(decide (t.name = ".git"))))) := by
    rw [sortedDirTrees, sortTreesByName]
    exact (sortLe_perm _ _).trans hLc
  have hR : List.Perm (canonMap (sortedDirTrees c))
      (canonMap (c.filter (fun t => t.isDir && !(decide (t.name = ".git"))))) := by
    rw [canonMap_eq_map, canonMap_eq_map, sortedDirTrees, sortTreesByName]
    exact (sortLe_perm _ _).map FSTree.canon
  refine sorted_nodup_perm_eq ?_ ?_ ?_ (hL.trans hR.symm)
  · exact sortLe_sorted byName_total byName_trans _
  · exact pairwise_byName_canonMap (sortLe_sorted byName_total byName_trans _)
  · -- duplicate-free names of the left-hand side
    have hnd1 : ((canonList c).map FSTree.name).Nodup :=
      ((names_canonList_perm c).nodup_iff).mpr hnd
    have hnd2 : (((canonList c).filter
        (fun t => t.isDir && !(decide (t.name = ".git")))).map FSTree.name).Nodup :=
      List.Nodup.sublist ((List.filter_sublist _).map FSTree.name) hnd1
    have hperm : List.Perm
        ((sortedDirTrees (canonList c)).map FSTree.name)
        (((canonList c).filter
          (fun t => t.isDir && !(decide (t.name = ".git")))).map FSTree.name) := by
      rw [sortedDirTrees, sortTreesByName]
      exact (sortLe_perm _ _).map FSTree.name
    exact (hperm.nodup_iff).mpr hnd2

theorem wfAllB_mem {c : List FSTree} (h : wfAllB c = true) {t : FSTree}
    (ht : t ∈ c) : t.wfB = true := by
  induction c with
  | nil => cases ht
  | cons x xs ih =>
    rw [wfAllB, Bool.and_eq_true] at h
    rcases List.mem_cons.mp ht with rfl | ht'
    · exact h.1
    · exact ih h.2 ht'

theorem wfListB_childrenOf {c : List FSTree} (h : wfListB c = true) {t : FSTree}
    (ht : t ∈ c) : wfListB t.childrenOf = true := by
  rw [wfListB, Bool.and_eq_true] at h
  have hw := wfAllB_mem h.2 ht
  cases t with
  | file n s m => rfl
  | dir n m cc => simpa [FSTree.wfB, wfListB] using hw

theorem listDirBlocksAux_canonList (most : Option String) :
    ∀ (budget : Nat) (path : String) (c : List FSTree) (d : Nat),
      wfListB c = true →
      listDirBlocksAux most budget path (canonList c) d
        = listDirBlocksAux most budget path c d := by
  intro budget
  induction budget with
  | zero =>
    intro path c d _
    simp only [listDirBlocksAux]
    rw [mkDirBlock_canonList]
  | succ b ih =>
    intro path c d hwf
    simp only [listDirBlocksAux]
    rw [mkDirBlock_canonList]
    congr 1
    have hnd : (c.map FSTree.name).Nodup := by
      rw [wfListB, Bool.and_eq_true, nodupB_iff] at hwf
      exact hwf.1
    rw [sortedDirTrees_canonList c hnd, canonMap_eq_map, List.flatMap_map]
    refine flatMap_congr_mem _ _ _ ?_
    intro t ht
    show listDirBlocksAux most b (pjoin path t.canon.name) t.canon.childrenOf (d + 1)
        = listDirBlocksAux most b (pjoin path t.name) t.childrenOf (d + 1)
    rw [canon_name, canon_childrenOf]
    apply ih
    have htc : t ∈ c := by
      have h1 := mem_sortLe.mp (by simpa [sortedDirTrees, sortTreesByName] using ht)
      exact List.mem_of_mem_filter h1
    exact wfListB_childrenOf hwf htc

theorem mrCandidates_canonList_perm (c : List FSTree) :
    List.Perm (mrCandidates (canonList c)) (mrCandidates c) := by
  rw [mrCandidates, mrCandidates, canonList]
  have hpred : ∀ t : FSTree,
      (t.canon.isDir && !(decide (t.canon.name = ".git")
          || decide (t.canon.name = ".github")))
        = (t.isDir && !(decide (t.name = ".git") || decide (t.name = ".github"))) := by
    intro t; rw [canon_isDir, canon_name]
  have h1 : List.Perm
      ((sortTreesByName (canonMap c)).filter (fun t => t.isDir
        && !(decide (t.name = ".git") || decide (t.name = ".github"))))
      ((canonMap c).filter (fun t => t.isDir
        && !(decide (t.name = ".git") || decide (t.name = ".github")))) :=
    (sortLe_perm _ _).filter _
  have h2 : (canonMap c).filter (fun t => t.isDir
        && !(decide (t.name = ".git") || decide (t.name = ".github")))
      = canonMap (c.filter (fun t => t.isDir
        && !(decide (t.name = ".git") || decide (t.name = ".github")))) :=
    canon_preserves_pred _ hpred c
  have h3 := h1.map (fun t : FSTree => (t.name, t.mtime))
  rw [h2] at h3
  have h4 : (canonMap (c.filter (fun t => t.isDir
        && !(decide (t.name = ".git") || decide (t.name = ".github"))))).map
        (fun t : FSTree => (t.name, t.mtime))
      = (c.filter (fun t => t.isDir
        && !(decide (t.name = ".git") || decide (t.name = ".github")))).map
        (fun t => (t.name, t.mtime)) := by
    rw [canonMap_eq_map, List.map_map]
    exact List.map_congr_left (fun t _ => by
      simp [Function.comp, canon_name, canon_mtime])
  rw [h4] at h3
  exact h3

theorem get_most_recent_canon_eq (c₁ c₂ : List FSTree)
    (hcanon : canonList c₁ = canonList c₂)
    (hnd : ((mrCandidates c₁).map (fun p => p.2)).Nodup) :
    get_most_recent_directory c₁ = get_most_recent_directory c₂ := by
  have hperm : List.Perm (mrCandidates c₁) (mrCandidates c₂) :=
    ((hcanon ▸ (mrCandidates_canonList_perm c₁).symm).trans
      (mrCandidates_canonList_perm c₂))
  cases h1 : sortByKeyDesc (fun p => p.2) (mrCandidates c₁) with
  | nil =>
    have hc1 : mrCandidates c₁ = [] := by
      have hp := sortLe_perm (fun a b => decide (b.2 ≤ a.2)) (mrCandidates c₁)
      rw [sortByKeyDesc] at h1
      rw [h1] at hp
      exact hp.symm.eq_nil
    have hc2 : mrCandidates c₂ = [] := by
      rw [hc1] at hperm
      exact hperm.symm.eq_nil
    simp [get_most_recent_directory, hc1, hc2, sortByKeyDesc, sortLe]
  | cons p r1 =>
    cases h2 : sortByKeyDesc (fun p => p.2) (mrCandidates c₂) with
    | nil =>
      exfalso
      have hc2 : mrCandidates c₂ = [] := by
        have hp := sortLe_perm (fun a b => decide (b.2 ≤ a.2)) (mrCandidates c₂)
        rw [sortByKeyDesc] at h2
        rw [h2] at hp
        exact hp.symm.eq_nil
      have hc1 : mrCandidates c₁ = [] := by
        rw [hc2] at hperm
        exact hperm.eq_nil
      rw [hc1] at h1
      simp [sortByKeyDesc, sortLe] at h1
    | cons q r2 =>
      have hp := sortByKeyDesc_head_max (fun x => x.2) (mrCandidates c₁) p r1 h1
      have hq := sortByKeyDesc_head_max (fun x => x.2) (mrCandidates c₂) q r2 h2
      have hq1 : q ∈ mrCandidates c₁ := hperm.mem_iff.mpr hq.1
      have hp2 : p ∈ mrCandidates c₂ := hperm.mem_iff.mp hp.1
      have e1 : q.2 ≤ p.2 := hp.2 q hq1
      have e2 : p.2 ≤ q.2 := hq.2 p hp2
      have heq : p = q := eq_of_mem_nodup_map (fun x => x.2) (mrCandidates c₁)
        hnd p hp.1 q hq1 (le_antisymm e2 e1)
      simp [get_most_recent_directory, h1, h2, heq]

/-- C9 (amended): for each visited directory the emitted immediate
    subdirectory names (with .git excluded) and the immediate file names
    are each in lexicographic order; and for two listdir presentations of
    the same fixed tree (equal canonical forms, well-formed) the rendered
    output is identical, provided no two most-recent-candidate
    subdirectories of the root tie on modification time — under a tie the
    [MOST RECENT] annotation may move between runs (see the
    counterexample), which is the only source of output nondeterminism. -/
theorem listing_sorted_and_deterministic (path : String) (N : Nat)
    (c₁ c₂ : List FSTree) (hwf₁ : wfListB c₁ = true) (hwf₂ : wfListB c₂ = true)
    (hcanon : canonList c₁ = canonList c₂)
    (hnd : ((mrCandidates c₁).map (fun p => p.2)).Nodup) :
    (∀ blk ∈ listDirBlocks (get_most_recent_directory c₁) N path c₁,
        (blk.subdirs.map Prod.fst).Pairwise (fun a b => strLeB a b = true)
        ∧ blk.files.Pairwise (fun a b => strLeB a b = true)
        ∧ ".git" ∉ blk.subdirs.map Prod.fst)
    ∧ renderBlocks (listDirBlocks (get_most_recent_directory c₁) N path c₁)
        = renderBlocks (listDirBlocks (get_most_recent_directory c₂) N path c₂) := by
  constructor
  · intro blk hblk
    exact listDirBlocksAux_sorted _ N path c₁ 0 blk hblk
  · have hmr : get_most_recent_directory c₁ = get_most_recent_directory c₂ :=
      get_most_recent_canon_eq c₁ c₂ hcanon hnd
    have hblocks : listDirBlocks (get_most_recent_directory c₁) N path c₁
        = listDirBlocks (get_most_recent_directory c₂) N path c₂ := by
      rw [listDirBlocks, listDirBlocks, hmr,
        ← listDirBlocksAux_canonList _ N path c₁ 0 hwf₁,
        ← listDirBlocksAux_canonList _ N path c₂ 0 hwf₂, hcanon]
    rw [hblocks]

theorem listing_sorted_and_deterministic_witness :
    (∀ blk ∈ listDirBlocks
        (get_most_recent_directory [exProjA, .file "top.txt" "tt" 7])
        DEFAULT_MAX_DEPTH "/w/storage" [exProjA, .file "top.txt" "tt" 7],
        (blk.subdirs.map Prod.fst).Pairwise (fun a b => strLeB a b = true)
        ∧ blk.files.Pairwise (fun a b => strLeB a b = true)
        ∧ ".git" ∉ blk.subdirs.map Prod.fst)
    ∧ renderBlocks (listDirBlocks
        (get_most_recent_directory [exProjA, .file "top.txt" "tt" 7])
        DEFAULT_MAX_DEPTH "/w/storage" [exProjA, .file "top.txt" "tt" 7])
      = renderBlocks (listDirBlocks
        (get_most_recent_directory [.file "top.txt" "tt" 7, exProjA])
        DEFAULT_MAX_DEPTH "/w/storage" [.file "top.txt" "tt" 7, exProjA]) :=
  listing_sorted_and_deterministic "/w/storage" DEFAULT_MAX_DEPTH
    [exProjA, .file "top.txt" "tt" 7] [.file "top.txt" "tt" 7, exProjA]
    (by decide) (by decide) rfl (by decide)

def exTieA : List FSTree := [.dir "A" 5 [], .dir "B" 5 []]

def exTieB : List FSTree := [.dir "B" 5 [], .dir "A" 5 []]

/-- C9 counterexample: two listdir presentations of the same fixed tree —
    two subdirectories A and B with equal modification times — have equal
    canonical forms and are well-formed, yet build_files renders different
    output: the stable mtime sort inside get_most_recent_directory keeps
    the listdir order among ties, so [MOST RECENT] lands on A in one run
    and on B in the other.  Repeated calls over a fixed unchanging tree
    are therefore not guaranteed identical output. -/
theorem listing_output_tie_cex :
    canonList exTieA = canonList exTieB
    ∧ wfListB exTieA = true ∧ wfListB exTieB = true
    ∧ ¬ (renderBlocks (listDirBlocks (get_most_recent_directory exTieA)
          DEFAULT_MAX_DEPTH "/w/storage" exTieA)
        = renderBlocks (listDirBlocks (get_most_recent_directory exTieB)
          DEFAULT_MAX_DEPTH "/w/storage" exTieB)) :=
  ⟨rfl, rfl, rfl, by decide⟩

end CWF
